import Mathlib

/-!
Verification development for the container-diff directory/metadata diff core.

The development shallowly embeds:
* the ordered-sequence matcher (the difflib dependency used by
  `util/output_text_utils.go`; its source is not part of the repository, so it
  is modelled from the specification, section 4.1),
* the pure diff pipeline of `util/output_text_utils.go`,
* the filesystem helpers of `pkg/util/fs_utils.go`, with the operating-system
  surface (lstat, readlink, file reads, directory walks, tar sniffing)
  abstracted as oracles in an `FS` record, and
* the layer orchestration of `differs/filemeta_diff.go`.
-/

namespace ContainerDiff

/-- Matching block of the sequence matcher: `first[A:A+Size] == second[B:B+Size]`. -/
structure Match where
  A : Nat
  B : Nat
  Size : Nat
deriving DecidableEq

/-- Opcode of the sequence matcher; `tag` is one of the characters r, d, i, e
describing how `first[i1:i2]` relates to `second[j1:j2]`. -/
structure OpCode where
  tag : Char
  i1 : Nat
  i2 : Nat
  j1 : Nat
  j2 : Nat
deriving DecidableEq

/-- Go slice `l[i:j]` (elements `i` up to, excluding, `j`). -/
def sliceList {α : Type} (l : List α) (i j : Nat) : List α :=
  (l.drop i).take (j - i)

/-- Modelled from the spec: length of the common contiguous run of `a` and `b`
starting at positions `i` and `j`, stopping at the window bounds `ahi`/`bhi`.
The fuel argument equals `ahi - i`, so the recursion is structural. -/
def runLenAux (a b : List String) (bhi : Nat) : Nat → Nat → Nat → Nat
  | 0, _, _ => 0
  | fuel + 1, i, j =>
    if j < bhi ∧ (a[i]?).isSome ∧ a[i]? = b[j]? then
      runLenAux a b bhi fuel (i + 1) (j + 1) + 1
    else 0

/-- Modelled from the spec: common-run length within the window
`[alo,ahi) times [blo,bhi)` starting at `(i, j)`. -/
def runLen (a b : List String) (ahi bhi i j : Nat) : Nat :=
  runLenAux a b bhi (ahi - i) i j

/-- Candidate starting positions `(i, j)` inside the window, in ascending
lexicographic order (earliest in `a`, then earliest in `b`). -/
def lmCandidates (alo ahi blo bhi : Nat) : List (Nat × Nat) :=
  (List.range' alo (ahi - alo)).flatMap
    (fun i => (List.range' blo (bhi - blo)).map (fun j => (i, j)))

/-- One step of the longest-match search: keep the strictly better candidate,
so the earliest maximal candidate wins (the spec's tie-breaking rule). -/
def lmStep (a b : List String) (ahi bhi : Nat) (best : Match) (c : Nat × Nat) : Match :=
  if best.Size < runLen a b ahi bhi c.1 c.2 then ⟨c.1, c.2, runLen a b ahi bhi c.1 c.2⟩ else best

/-- Modelled from the spec: the difflib sequence matcher source is not in the
repository.  Per section 4.1, find the single longest common contiguous run in
the window, ties broken by earliest starting position in `a`, then in `b`. -/
def findLongestMatch (a b : List String) (alo ahi blo bhi : Nat) : Match :=
  (lmCandidates alo ahi blo bhi).foldl (lmStep a b ahi bhi) ⟨alo, blo, 0⟩

/-- Modelled from the spec: the recursive Ratcliff/Obershelp strategy of
section 4.1 with explicit fuel (the fuel argument bounds the window width
`ahi - alo`, which strictly decreases at each recursive call, so the fueled
function agrees with the recursion whenever `ahi - alo ≤ fuel`). -/
def matchBlocksAux (a b : List String) : Nat → Nat → Nat → Nat → Nat → List Match
  | 0, _, _, _, _ => []
  | fuel + 1, alo, ahi, blo, bhi =>
    let m := findLongestMatch a b alo ahi blo bhi
    if 0 < m.Size then
      (if alo < m.A ∧ blo < m.B then matchBlocksAux a b fuel alo m.A blo m.B else [])
        ++ m ::
          (if m.A + m.Size < ahi ∧ m.B + m.Size < bhi then
            matchBlocksAux a b fuel (m.A + m.Size) ahi (m.B + m.Size) bhi
          else [])
    else []

/-- Modelled from the spec: recursive matching-block collection on a window. -/
def matchBlocks (a b : List String) (alo ahi blo bhi : Nat) : List Match :=
  matchBlocksAux a b (ahi - alo) alo ahi blo bhi

/-- Modelled from the spec: all matching blocks of `a` and `b`, sorted by
position and terminated by the synthetic zero-length sentinel block at
`(len a, len b, 0)` (section 3). -/
def getMatchingBlocks (a b : List String) : List Match :=
  matchBlocks a b 0 a.length 0 b.length ++ [⟨a.length, b.length, 0⟩]

/-- Modelled from the spec: derive opcodes from the matching blocks.  Walking
the blocks from position `(i, j)`, every maximal non-equal region before the
next block becomes one opcode tagged r (replace), d (delete) or i (insert),
and every non-empty block becomes an opcode tagged e (equal); section 4.1. -/
def genOpCodes : List Match → Nat → Nat → List OpCode
  | [], _, _ => []
  | m :: rest, i, j =>
    (if i < m.A ∧ j < m.B then [⟨'r', i, m.A, j, m.B⟩]
     else if i < m.A then [⟨'d', i, m.A, j, m.B⟩]
     else if j < m.B then [⟨'i', i, m.A, j, m.B⟩]
     else [])
      ++ (if 0 < m.Size then [⟨'e', m.A, m.A + m.Size, m.B, m.B + m.Size⟩] else [])
      ++ genOpCodes rest (m.A + m.Size) (m.B + m.Size)

/-- Modelled from the spec: the full opcode list for `a` versus `b`.  Grouping
opcodes with a zero-width context window only splits group boundaries at equal
opcodes and never changes the non-equal opcodes or their order, so the
collectors below iterate this flat list. -/
def getOpCodes (a b : List String) : List OpCode :=
  genOpCodes (getMatchingBlocks a b) 0 0

/-- Embedding of `GetAdditions` (src/util/output_text_utils.go): collect, in
order, the `b`-side spans of the replace and insert opcodes. -/
def GetAdditions (a b : List String) : List String :=
  (getOpCodes a b).foldl
    (fun adds opCode =>
      if opCode.tag == 'r' || opCode.tag == 'i' then adds ++ sliceList b opCode.j1 opCode.j2
      else adds)
    []

/-- Embedding of `GetDeletions` (src/util/output_text_utils.go): collect, in
order, the `a`-side spans of the replace and delete opcodes. -/
def GetDeletions (a b : List String) : List String :=
  (getOpCodes a b).foldl
    (fun dels opCode =>
      if opCode.tag == 'r' || opCode.tag == 'd' then dels ++ sliceList a opCode.i1 opCode.i2
      else dels)
    []

/-- Embedding of `GetMatches` (src/util/output_text_utils.go): concatenate the
`a`-side spans of every matching block except the last (the sentinel). -/
def GetMatches (a b : List String) : List String :=
  ((getMatchingBlocks a b).dropLast.map (fun m => sliceList a m.A (m.A + m.Size))).flatten

/-- Lstat result: the fields of `os.FileInfo` and `syscall.Stat_t` that the
diff engines read.  `mode` is the `fs.FileMode` bit set. -/
structure FileStat where
  mode : Nat
  size : Int
  uid : Nat
  gid : Nat
deriving DecidableEq

/-- Oracle for the operating-system surface used by the engines.  `lstat`,
`readlink`, `readFile` and `readDir` return `none` exactly when the
corresponding Go call returns an error.  `walkPaths` lists the paths that
`filepath.Walk` passes to the walk callback, in order, and `walkHadError`
records whether the walk encountered (and reported to the callback) any error.
`isTar` is the format sniff performed by `pkgutil.IsTar` (whose source is not
in the repository), and `dirSize` is the recursive size computed by
`getDirectorySize`. -/
structure FS where
  lstat : String → Option FileStat
  readlink : String → Option String
  readFile : String → Option (List Nat)
  isTar : String → Bool
  dirSize : String → Int
  walkPaths : String → List String
  walkHadError : String → Bool
  readDir : String → Option (List String)

/-- Bit of `fs.FileMode` marking a directory (`fs.ModeDir = 1 << 31`). -/
def modeDir : Nat := 2 ^ 31

/-- Bit of `fs.FileMode` marking a symbolic link (`fs.ModeSymlink = 1 << 27`). -/
def modeSymlink : Nat := 2 ^ 27

/-- Go `stat.IsDir()`: the directory bit of the mode is set. -/
def statIsDir (st : FileStat) : Bool :=
  st.mode &&& modeDir != 0

/-- Go `stat.Mode()&os.ModeSymlink != 0`. -/
def statIsSymlink (st : FileStat) : Bool :=
  st.mode &&& modeSymlink != 0

/-- Embedding of `Directory` (src/pkg/util/fs_utils.go). -/
structure Directory where
  Root : String
  Content : List String
deriving DecidableEq

/-- Embedding of `DirectoryEntry` (src/pkg/util/fs_utils.go). -/
structure DirectoryEntry where
  Name : String
  Size : Int
deriving DecidableEq

/-- Embedding of `DirectoryMetaEntry` (src/pkg/util/fs_utils.go). -/
structure DirectoryMetaEntry where
  Name : String
  Mode : Nat
  UID : Nat
  GID : Nat
deriving DecidableEq

/-- Embedding of `EntryDiff` (src/util/output_text_utils.go). -/
structure EntryDiff where
  Name : String
  Size1 : Int
  Size2 : Int
deriving DecidableEq

/-- Embedding of `MetaEntryDiff` (src/util/output_text_utils.go). -/
structure MetaEntryDiff where
  Name : String
  Mode1 : Nat
  UID1 : Nat
  GID1 : Nat
  Mode2 : Nat
  UID2 : Nat
  GID2 : Nat
deriving DecidableEq

/-- Embedding of `DirDiff` (src/util/output_text_utils.go). -/
structure DirDiff where
  Adds : List DirectoryEntry
  Dels : List DirectoryEntry
  Mods : List EntryDiff
deriving DecidableEq

/-- Embedding of `MetaDirDiff` (src/util/output_text_utils.go). -/
structure MetaDirDiff where
  Adds : List DirectoryMetaEntry
  Dels : List DirectoryMetaEntry
  Mods : List MetaEntryDiff
deriving DecidableEq

/-- Embedding of `filepath.Join(root, name)`.  Go additionally runs
`filepath.Clean` on the result; for the rooted relative names produced by the
walkers the cleaned result is the plain concatenation, which is what the
engines compare, so the embedding concatenates. -/
def filepathJoin (root name : String) : String :=
  root ++ name

/-- Embedding of `strings.TrimPrefix(s, pre)`, computed on the character
lists underlying the two strings. -/
def trimPrefixStr (s pre : String) : String :=
  if pre.data.isPrefixOf s.data then ⟨s.data.drop pre.data.length⟩ else s

/-- Embedding of `GetSize` (src/pkg/util/fs_utils.go): `-1` when lstat fails,
the recursive directory size for directories, the stat size otherwise. -/
def GetSize (fs : FS) (path : String) : Int :=
  match fs.lstat path with
  | none => -1
  | some stat => if statIsDir stat then fs.dirSize path else stat.size

/-- Embedding of `CheckSameSymlink` (src/pkg/util/fs_utils.go). -/
def CheckSameSymlink (fs : FS) (f1name f2name : String) : Option Bool :=
  match fs.readlink f1name with
  | none => none
  | some link1 =>
    match fs.readlink f2name with
    | none => none
    | some link2 => some (link1 == link2)

/-- Embedding of `CheckSameFile` (src/pkg/util/fs_utils.go): sizes first, then
a full byte comparison. -/
def CheckSameFile (fs : FS) (f1name f2name : String) : Option Bool :=
  match fs.lstat f1name with
  | none => none
  | some f1stat =>
    match fs.lstat f2name with
    | none => none
    | some f2stat =>
      if f1stat.size ≠ f2stat.size then some false
      else
        match fs.readFile f1name with
        | none => none
        | some c1 =>
          match fs.readFile f2name with
          | none => none
          | some c2 => if c1 ≠ c2 then some false else some true

/-- Embedding of `GetDirectory` (src/pkg/util/fs_utils.go).  The Boolean is
the returned error.  In the deep branch the walk callback ignores the error
handed to it and always returns nil, so `filepath.Walk` always returns nil and
the deep branch never reports an error; the shallow branch propagates the
`ioutil.ReadDir` error. -/
def GetDirectory (fs : FS) (path : String) (deep : Bool) : Directory × Bool :=
  if deep then
    (⟨path,
      (fs.walkPaths path).filterMap (fun currPath =>
        let newContent := trimPrefixStr currPath path
        if newContent = "" then none else some newContent)⟩, false)
  else
    match fs.readDir path with
    | none => (⟨path, []⟩, true)
    | some contents => (⟨path, contents.map (fun fileName => "/" ++ fileName)⟩, false)

/-- Embedding of `CreateDirectoryEntries` (src/pkg/util/fs_utils.go). -/
def CreateDirectoryEntries (fs : FS) (root : String) (entryNames : List String) :
    List DirectoryEntry :=
  entryNames.map (fun name => ⟨name, GetSize fs (filepathJoin root name)⟩)

/-- Embedding of `CreateDirectoryMetaEntries` (src/pkg/util/fs_utils.go): the
first lstat failure aborts with an error (`none`). -/
def CreateDirectoryMetaEntries (fs : FS) (root : String) :
    List String → Option (List DirectoryMetaEntry)
  | [] => some []
  | name :: rest =>
    match fs.lstat (filepathJoin root name) with
    | none => none
    | some fstat =>
      (CreateDirectoryMetaEntries fs root rest).map
        (fun entries => ⟨name, fstat.mode, fstat.uid, fstat.gid⟩ :: entries)

/-- Loop body of `GetModifiedEntries` (src/util/output_text_utils.go) for one
matched candidate `f`: decides whether `f` is appended to the modified list.
Lstat, readlink or read failures skip the candidate (`false`). -/
def isModifiedEntry (fs : FS) (root1 root2 : String) (f : String) : Bool :=
  match fs.lstat (root1 ++ f) with
  | none => false
  | some f1stat =>
    match fs.lstat (root2 ++ f) with
    | none => false
    | some f2stat =>
      if statIsSymlink f1stat && statIsSymlink f2stat then
        match CheckSameSymlink fs (root1 ++ f) (root2 ++ f) with
        | none => false
        | some same => !same
      else if fs.isTar (root1 ++ f) then
        decide (f1stat.size ≠ f2stat.size)
      else if !(statIsDir f1stat) then
        match CheckSameFile fs (root1 ++ f) (root2 ++ f) with
        | none => false
        | some same => !same
      else false

/-- Embedding of `GetModifiedEntries` (src/util/output_text_utils.go): run the
per-candidate classification over the matched names; the loop appends exactly
the candidates on which the classification holds, in order, i.e. a filter. -/
def GetModifiedEntries (fs : FS) (d1 d2 : Directory) : List String :=
  (GetMatches d1.Content d2.Content).filter (isModifiedEntry fs d1.Root d2.Root)

/-- Loop body of `GetModifiedMetaEntries` (src/util/output_text_utils.go) for
one matched candidate: mode, then uid/gid comparison; lstat failures skip. -/
def isMetaModifiedEntry (fs : FS) (root1 root2 : String) (f : String) : Bool :=
  match fs.lstat (root1 ++ f) with
  | none => false
  | some f1stat =>
    match fs.lstat (root2 ++ f) with
    | none => false
    | some f2stat =>
      if f1stat.mode ≠ f2stat.mode then true
      else if f1stat.uid ≠ f2stat.uid ∨ f1stat.gid ≠ f2stat.gid then true
      else false

/-- Embedding of `GetModifiedMetaEntries` (src/util/output_text_utils.go). -/
def GetModifiedMetaEntries (fs : FS) (d1 d2 : Directory) : List String :=
  (GetMatches d1.Content d2.Content).filter (isMetaModifiedEntry fs d1.Root d2.Root)

/-- Embedding of `GetAddedEntries` (src/util/output_text_utils.go). -/
def GetAddedEntries (d1 d2 : Directory) : List String :=
  GetAdditions d1.Content d2.Content

/-- Embedding of `GetDeletedEntries` (src/util/output_text_utils.go). -/
def GetDeletedEntries (d1 d2 : Directory) : List String :=
  GetDeletions d1.Content d2.Content

/-- Embedding of `sort.Strings`: sort ascending. -/
def sortStrings (l : List String) : List String :=
  l.insertionSort (fun s t => s ≤ t)

/-- Embedding of `createEntryDiffs` (src/util/output_text_utils.go). -/
def createEntryDiffs (fs : FS) (root1 root2 : String) (entryNames : List String) :
    List EntryDiff :=
  entryNames.map (fun name =>
    ⟨name, GetSize fs (filepathJoin root1 name), GetSize fs (filepathJoin root2 name)⟩)

/-- Embedding of `createMetaEntryDiffs` (src/util/output_text_utils.go): the
first lstat failure on either side aborts with an error (`none`). -/
def createMetaEntryDiffs (fs : FS) (root1 root2 : String) :
    List String → Option (List MetaEntryDiff)
  | [] => some []
  | name :: rest =>
    match fs.lstat (filepathJoin root1 name) with
    | none => none
    | some f1stat =>
      match fs.lstat (filepathJoin root2 name) with
      | none => none
      | some f2stat =>
        (createMetaEntryDiffs fs root1 root2 rest).map
          (fun entries =>
            ⟨name, f1stat.mode, f1stat.uid, f1stat.gid,
              f2stat.mode, f2stat.uid, f2stat.gid⟩ :: entries)

/-- Embedding of `DiffDirectory` (src/util/output_text_utils.go).  The Boolean
is `same`, computed from the three sorted name lists. -/
def DiffDirectory (fs : FS) (d1 d2 : Directory) : DirDiff × Bool :=
  let adds := sortStrings (GetAddedEntries d1 d2)
  let addedEntries := CreateDirectoryEntries fs d2.Root adds
  let dels := sortStrings (GetDeletedEntries d1 d2)
  let deletedEntries := CreateDirectoryEntries fs d1.Root dels
  let mods := sortStrings (GetModifiedEntries fs d1 d2)
  let modifiedEntries := createEntryDiffs fs d1.Root d2.Root mods
  (⟨addedEntries, deletedEntries, modifiedEntries⟩,
    adds.length == 0 && dels.length == 0 && mods.length == 0)

/-- Result triple of `DiffDirectoryMetadata`: the Go function returns
`(MetaDirDiff, bool, error)`; `err` is whether the error is non-nil. -/
structure MetaDiffRet where
  diff : MetaDirDiff
  same : Bool
  err : Bool
deriving DecidableEq

/-- Embedding of `DiffDirectoryMetadata` (src/util/output_text_utils.go): any
materialization failure returns the zero `MetaDirDiff`, `same = false` and an
error. -/
def DiffDirectoryMetadata (fs : FS) (d1 d2 : Directory) : MetaDiffRet :=
  let adds := sortStrings (GetAddedEntries d1 d2)
  match CreateDirectoryMetaEntries fs d2.Root adds with
  | none => ⟨⟨[], [], []⟩, false, true⟩
  | some addedEntries =>
    let dels := sortStrings (GetDeletedEntries d1 d2)
    match CreateDirectoryMetaEntries fs d1.Root dels with
    | none => ⟨⟨[], [], []⟩, false, true⟩
    | some deletedEntries =>
      let mods := sortStrings (GetModifiedMetaEntries fs d1 d2)
      match createMetaEntryDiffs fs d1.Root d2.Root mods with
      | none => ⟨⟨[], [], []⟩, false, true⟩
      | some modifiedEntries =>
        ⟨⟨addedEntries, deletedEntries, modifiedEntries⟩,
          adds.length == 0 && dels.length == 0 && mods.length == 0, false⟩

/-- Embedding of `diffImageFileMetadata` (src/differs/filemeta_diff.go).  The
Boolean is the returned error; each failing stage returns the zero diff. -/
def diffImageFileMetadata (fs : FS) (img1 img2 : String) : MetaDirDiff × Bool :=
  let r1 := GetDirectory fs img1 true
  if r1.2 then (⟨[], [], []⟩, true)
  else
    let r2 := GetDirectory fs img2 true
    if r2.2 then (⟨[], [], []⟩, true)
    else
      let r := DiffDirectoryMetadata fs r1.1 r2.1
      if r.err then (⟨[], [], []⟩, true) else (r.diff, false)

/-- Layer of an image (the field of `pkgutil.Layer` used by the orchestrator). -/
structure Layer where
  FSPath : String
deriving DecidableEq

/-- Image (the fields of `pkgutil.Image` used by the orchestrator). -/
structure Image where
  Source : String
  FSPath : String
  Layers : List Layer
deriving DecidableEq

/-- Loop of `FileMetaLayerAnalyzer.Diff` (src/differs/filemeta_diff.go) over
the layers of the first image, carrying the current index: indices at or past
the end of the second image's layer list are skipped (`continue`), a failing
pair aborts with an error (`none`), otherwise the per-pair diff is appended. -/
def diffLayersAux (fs : FS) (layers2 : List Layer) : Nat → List Layer → Option (List MetaDirDiff)
  | _, [] => some []
  | index, layer :: rest =>
    if h : index < layers2.length then
      match diffImageFileMetadata fs layer.FSPath (layers2.get ⟨index, h⟩).FSPath with
      | (_, true) => none
      | (d, false) => (diffLayersAux fs layers2 (index + 1) rest).map (fun ds => d :: ds)
    else
      diffLayersAux fs layers2 (index + 1) rest

/-- Embedding of `FileMetaLayerAnalyzer.Diff` (src/differs/filemeta_diff.go):
the ordered per-layer diffs, or `none` when a pair hard-fails. -/
def FileMetaLayerAnalyzerDiff (fs : FS) (image1 image2 : Image) : Option (List MetaDirDiff) :=
  diffLayersAux fs image2.Layers 0 image1.Layers

/-- Invariant of `findLongestMatch`: a non-trivial result lies inside the
window and its size is the run length at its starting positions. -/
def FLMInv (a b : List String) (alo ahi blo bhi : Nat) (m : Match) : Prop :=
  0 < m.Size →
    alo ≤ m.A ∧ m.A + m.Size ≤ ahi ∧ blo ≤ m.B ∧ m.B + m.Size ≤ bhi ∧
      m.Size = runLen a b ahi bhi m.A m.B

/-- Chain invariant for a block list starting at positions `(i, j)`: blocks
are increasing, lie inside the two sequences, and each block really is a
common run. -/
def ChainOK (a b : List String) : Nat → Nat → List Match → Prop
  | _, _, [] => True
  | i, j, m :: rest =>
    i ≤ m.A ∧ j ≤ m.B ∧ m.A + m.Size ≤ a.length ∧ m.B + m.Size ≤ b.length ∧
      sliceList a m.A (m.A + m.Size) = sliceList b m.B (m.B + m.Size) ∧
      ChainOK a b (m.A + m.Size) (m.B + m.Size) rest

/-- Position in the first sequence after walking a block list. -/
def endA : List Match → Nat → Nat
  | [], i => i
  | m :: rest, _ => endA rest (m.A + m.Size)

/-- Position in the second sequence after walking a block list. -/
def endB : List Match → Nat → Nat
  | [], j => j
  | m :: rest, _ => endB rest (m.B + m.Size)

/-- Filesystem oracle with every operation failing or empty. -/
def fsNone : FS :=
  ⟨fun _ => none, fun _ => none, fun _ => none, fun _ => false,
    fun _ => 0, fun _ => [], fun _ => false, fun _ => none⟩

/-- Fixture: both sides of `/t` are symlinks with equal sizes and different
targets, and the first side is sniffed as a tar archive. -/
def fsTarSym : FS :=
  { fsNone with
    lstat := fun p =>
      if p = "/1/t" ∨ p = "/2/t" then some ⟨modeSymlink, 5, 0, 0⟩ else none
    readlink := fun p =>
      if p = "/1/t" then some "/a" else if p = "/2/t" then some "/b" else none
    isTar := fun p => p = "/1/t" }

/-- Fixture: `/t` is a regular tar file on both sides with differing sizes. -/
def fsTarPlain : FS :=
  { fsNone with
    lstat := fun p =>
      if p = "/1/t" then some ⟨0, 3, 0, 0⟩
      else if p = "/2/t" then some ⟨0, 4, 0, 0⟩ else none
    isTar := fun p => p = "/1/t" }

/-- Fixture: `/link` is a symlink on both sides with identical mode, uid and
gid but different targets. -/
def fsLink : FS :=
  { fsNone with
    lstat := fun p =>
      if p = "/1/link" ∨ p = "/2/link" then some ⟨modeSymlink + 511, 4, 7, 8⟩ else none
    readlink := fun p =>
      if p = "/1/link" then some "/a" else if p = "/2/link" then some "/b" else none }

/-- Fixture: the deep walk of `/img1` reports an error to the walk callback
(recorded in `walkHadError`) while both trees still list the entry `/a` with
identical metadata. -/
def fsWalkErr : FS :=
  { fsNone with
    lstat := fun p =>
      if p = "/img1/a" ∨ p = "/img2/a" then some ⟨420, 3, 0, 0⟩ else none
    walkPaths := fun p =>
      if p = "/img1" then ["/img1", "/img1/a"]
      else if p = "/img2" then ["/img2", "/img2/a"] else []
    walkHadError := fun p => p = "/img1" }

/-- Fixture: `/f` is a symlink on the first side only; both sides readable
regular data otherwise. -/
def fsOneLink : FS :=
  { fsNone with
    lstat := fun p =>
      if p = "/1/f" then some ⟨modeSymlink, 3, 0, 0⟩
      else if p = "/2/f" then some ⟨0, 3, 0, 0⟩ else none
    readFile := fun p =>
      if p = "/1/f" then some [1] else if p = "/2/f" then some [2] else none }

/-- Fixture image with two layers. -/
def img1W : Image :=
  ⟨"i1", "/i1", [⟨"/l0"⟩, ⟨"/l1"⟩]⟩

/-- Fixture image with one layer. -/
def img2W : Image :=
  ⟨"i2", "/i2", [⟨"/m0"⟩]⟩

/-- Octal rendering of Go `fmt.Sprintf("%#o", n)` for an unsigned value. -/
def natToOctal (n : Nat) : String :=
  if n = 0 then "0" else "0" ++ String.mk (Nat.toDigits 8 n)

/-- Embedding of `stringifyMeta` (src/util/output_text_utils.go):
`fmt.Sprintf("mode=%#o uid=%d gid=%d", mode, uid, gid)`. -/
def stringifyMeta (mode uid gid : Nat) : String :=
  "mode=" ++ natToOctal mode ++ " uid=" ++ toString uid ++ " gid=" ++ toString gid

/-- Embedding of `StrMetaEntryDiff` (src/util/output_text_utils.go). -/
structure StrMetaEntryDiff where
  Name : String
  Meta1 : String
  Meta2 : String
deriving DecidableEq

/-- Embedding of `stringifyMetaEntryDiffs` (src/util/output_text_utils.go):
both rendered strings are built from `Mode1`, `UID1`, `GID1`, exactly as in
the source. -/
def stringifyMetaEntryDiffs (entries : List MetaEntryDiff) : List StrMetaEntryDiff :=
  entries.map (fun entry =>
    ⟨entry.Name, stringifyMeta entry.Mode1 entry.UID1 entry.GID1,
      stringifyMeta entry.Mode1 entry.UID1 entry.GID1⟩)

/-! Basic lemmas about `sliceList`. -/

theorem sliceList_same {α : Type} (l : List α) (i : Nat) : sliceList l i i = [] := by
  simp [sliceList]

theorem sliceList_full {α : Type} (l : List α) : sliceList l 0 l.length = l := by
  simp [sliceList]

theorem sliceList_append {α : Type} (l : List α) {i k j : Nat} (h1 : i ≤ k) (h2 : k ≤ j) :
    sliceList l i k ++ sliceList l k j = sliceList l i j := by
  unfold sliceList
  have hd : l.drop k = (l.drop i).drop (k - i) := by
    rw [List.drop_drop]
    congr 1
    omega
  rw [hd]
  have harith : j - i = (k - i) + (j - k) := by omega
  rw [harith, List.take_add]

theorem sliceList_getElem? {α : Type} (l : List α) (i j t : Nat) (ht : t < j - i) :
    (sliceList l i j)[t]? = l[i + t]? := by
  unfold sliceList
  rw [List.getElem?_take_of_lt ht, List.getElem?_drop]

theorem sliceList_getElem?_none {α : Type} (l : List α) (i j t : Nat) (ht : j - i ≤ t) :
    (sliceList l i j)[t]? = none := by
  apply List.getElem?_eq_none
  unfold sliceList
  calc ((l.drop i).take (j - i)).length ≤ j - i := List.length_take_le (j - i) (l.drop i)
    _ ≤ t := ht

theorem sliceList_eq_of_run {a b : List String} {i j k : Nat}
    (h : ∀ t, t < k → a[i + t]? = b[j + t]?) :
    sliceList a i (i + k) = sliceList b j (j + k) := by
  apply List.ext_getElem?
  intro t
  by_cases ht : t < k
  · rw [sliceList_getElem? a i (i + k) t (by omega), sliceList_getElem? b j (j + k) t (by omega)]
    exact h t ht
  · rw [sliceList_getElem?_none a i (i + k) t (by omega),
      sliceList_getElem?_none b j (j + k) t (by omega)]

theorem mem_of_mem_sliceList {α : Type} {l : List α} {i j : Nat} {x : α}
    (h : x ∈ sliceList l i j) : x ∈ l := by
  unfold sliceList at h
  exact List.mem_of_mem_drop (List.mem_of_mem_take h)

/-! Lemmas about `runLen`. -/

theorem runLen_eq (a b : List String) (ahi bhi i j : Nat) :
    runLen a b ahi bhi i j =
      if i < ahi ∧ j < bhi ∧ (a[i]?).isSome ∧ a[i]? = b[j]? then
        runLen a b ahi bhi (i + 1) (j + 1) + 1
      else 0 := by
  unfold runLen
  rcases h : ahi - i with _ | fuel
  · have : ¬ i < ahi := by omega
    simp [runLenAux, this]
  · have h1 : i < ahi := by omega
    have h2 : ahi - (i + 1) = fuel := by omega
    simp only [runLenAux, h2, h1, true_and]

theorem runLenAux_le (a b : List String) (bhi : Nat) :
    ∀ fuel i j, runLenAux a b bhi fuel i j ≤ fuel := by
  intro fuel
  induction fuel with
  | zero => intro i j; simp [runLenAux]
  | succ n ih =>
    intro i j
    by_cases h : j < bhi ∧ (a[i]?).isSome ∧ a[i]? = b[j]?
    · simp only [runLenAux, if_pos h]
      exact Nat.succ_le_succ (ih (i + 1) (j + 1))
    · simp only [runLenAux, if_neg h]
      omega

theorem runLen_le (a b : List String) (ahi bhi i j : Nat) :
    runLen a b ahi bhi i j ≤ ahi - i :=
  runLenAux_le a b bhi (ahi - i) i j

theorem runLenAux_le_b (a b : List String) (bhi : Nat) :
    ∀ fuel i j, runLenAux a b bhi fuel i j ≤ bhi - j := by
  intro fuel
  induction fuel with
  | zero => intro i j; simp [runLenAux]
  | succ n ih =>
    intro i j
    by_cases h : j < bhi ∧ (a[i]?).isSome ∧ a[i]? = b[j]?
    · simp only [runLenAux, if_pos h]
      have := ih (i + 1) (j + 1)
      omega
    · simp only [runLenAux, if_neg h]
      omega

theorem runLen_le_b (a b : List String) (ahi bhi i j : Nat) :
    runLen a b ahi bhi i j ≤ bhi - j :=
  runLenAux_le_b a b bhi (ahi - i) i j

theorem runLenAux_get (a b : List String) (bhi : Nat) :
    ∀ fuel i j t, t < runLenAux a b bhi fuel i j →
      a[i + t]? = b[j + t]? ∧ (a[i + t]?).isSome := by
  intro fuel
  induction fuel with
  | zero => intro i j t ht; simp [runLenAux] at ht
  | succ n ih =>
    intro i j t ht
    by_cases h : j < bhi ∧ (a[i]?).isSome ∧ a[i]? = b[j]?
    · simp only [runLenAux, if_pos h] at ht
      rcases t with _ | t
      · simp only [Nat.add_zero]
        exact ⟨h.2.2, h.2.1⟩
      · have := ih (i + 1) (j + 1) t (by omega)
        have e1 : i + 1 + t = i + (t + 1) := by omega
        have e2 : j + 1 + t = j + (t + 1) := by omega
        rw [e1, e2] at this
        exact this
    · simp [runLenAux, if_neg h] at ht

theorem runLen_get (a b : List String) (ahi bhi i j t : Nat)
    (ht : t < runLen a b ahi bhi i j) :
    a[i + t]? = b[j + t]? ∧ (a[i + t]?).isSome :=
  runLenAux_get a b bhi (ahi - i) i j t ht

theorem runLen_pos (a b : List String) {ahi bhi i j : Nat}
    (h1 : i < ahi) (h2 : j < bhi) (h3 : (a[i]?).isSome) (h4 : a[i]? = b[j]?) :
    0 < runLen a b ahi bhi i j := by
  rw [runLen_eq]
  have h5 : (b[j]?).isSome := by rw [← h4]; exact h3
  simp [h1, h2, h3, h4, h5]

/-! Lemmas about `findLongestMatch`. -/

theorem mem_lmCandidates {alo ahi blo bhi : Nat} {c : Nat × Nat} :
    c ∈ lmCandidates alo ahi blo bhi ↔
      alo ≤ c.1 ∧ c.1 < ahi ∧ blo ≤ c.2 ∧ c.2 < bhi := by
  rcases c with ⟨i, j⟩
  simp only [lmCandidates, List.mem_flatMap, List.mem_map, List.mem_range'_1, Prod.mk.injEq]
  constructor
  · rintro ⟨i', ⟨hi1, hi2⟩, j', ⟨hj1, hj2⟩, rfl, rfl⟩
    refine ⟨hi1, by omega, hj1, by omega⟩
  · rintro ⟨h1, h2, h3, h4⟩
    exact ⟨i, ⟨h1, by omega⟩, j, ⟨h3, by omega⟩, rfl, rfl⟩

theorem lmStep_inv {a b : List String} {alo ahi blo bhi : Nat} {best : Match}
    {c : Nat × Nat} (hc : alo ≤ c.1 ∧ c.1 < ahi ∧ blo ≤ c.2 ∧ c.2 < bhi)
    (hb : FLMInv a b alo ahi blo bhi best) :
    FLMInv a b alo ahi blo bhi (lmStep a b ahi bhi best c) := by
  unfold lmStep
  by_cases h : best.Size < runLen a b ahi bhi c.1 c.2
  · rw [if_pos h]
    intro _
    refine ⟨hc.1, ?_, hc.2.2.1, ?_, rfl⟩
    · have := runLen_le a b ahi bhi c.1 c.2
      simp only
      omega
    · have := runLen_le_b a b ahi bhi c.1 c.2
      simp only
      omega
  · rw [if_neg h]
    exact hb

theorem foldl_lmStep_inv {a b : List String} {alo ahi blo bhi : Nat} :
    ∀ (cs : List (Nat × Nat)) (best : Match),
      (∀ c ∈ cs, alo ≤ c.1 ∧ c.1 < ahi ∧ blo ≤ c.2 ∧ c.2 < bhi) →
      FLMInv a b alo ahi blo bhi best →
      FLMInv a b alo ahi blo bhi (cs.foldl (lmStep a b ahi bhi) best) := by
  intro cs
  induction cs with
  | nil => intro best _ hb; exact hb
  | cons c cs ih =>
    intro best hc hb
    exact ih _ (fun d hd => hc d (List.mem_cons_of_mem _ hd))
      (lmStep_inv (hc c (List.mem_cons_self _ _)) hb)

theorem lmStep_size_le {a b : List String} {ahi bhi : Nat} (best : Match) (c : Nat × Nat) :
    best.Size ≤ (lmStep a b ahi bhi best c).Size := by
  unfold lmStep
  by_cases h : best.Size < runLen a b ahi bhi c.1 c.2
  · rw [if_pos h]; exact Nat.le_of_lt h
  · rw [if_neg h]

theorem foldl_lmStep_size_le {a b : List String} {ahi bhi : Nat} :
    ∀ (cs : List (Nat × Nat)) (best : Match),
      best.Size ≤ (cs.foldl (lmStep a b ahi bhi) best).Size := by
  intro cs
  induction cs with
  | nil => intro best; exact Nat.le_refl _
  | cons c cs ih =>
    intro best
    exact Nat.le_trans (lmStep_size_le best c) (ih (lmStep a b ahi bhi best c))

theorem foldl_lmStep_ge {a b : List String} {ahi bhi : Nat} :
    ∀ (cs : List (Nat × Nat)) (best : Match) (c : Nat × Nat), c ∈ cs →
      runLen a b ahi bhi c.1 c.2 ≤ (cs.foldl (lmStep a b ahi bhi) best).Size := by
  intro cs
  induction cs with
  | nil => intro best c hc; simp at hc
  | cons d cs ih =>
    intro best c hc
    rcases List.mem_cons.1 hc with rfl | hc
    · refine Nat.le_trans ?_ (foldl_lmStep_size_le cs (lmStep a b ahi bhi best c))
      unfold lmStep
      by_cases h : best.Size < runLen a b ahi bhi c.1 c.2
      · rw [if_pos h]
      · rw [if_neg h]; omega
    · exact ih _ c hc

theorem findLongestMatch_inv {a b : List String} (alo ahi blo bhi : Nat) :
    FLMInv a b alo ahi blo bhi (findLongestMatch a b alo ahi blo bhi) := by
  apply foldl_lmStep_inv
  · intro c hc
    exact mem_lmCandidates.1 hc
  · intro h
    simp at h

theorem findLongestMatch_max {a b : List String} {alo ahi blo bhi i j : Nat}
    (h1 : alo ≤ i) (h2 : i < ahi) (h3 : blo ≤ j) (h4 : j < bhi) :
    runLen a b ahi bhi i j ≤ (findLongestMatch a b alo ahi blo bhi).Size :=
  foldl_lmStep_ge (lmCandidates alo ahi blo bhi) ⟨alo, blo, 0⟩ (i, j)
    (mem_lmCandidates.2 ⟨h1, h2, h3, h4⟩)

theorem findLongestMatch_run {a b : List String} {alo ahi blo bhi : Nat}
    (hpos : 0 < (findLongestMatch a b alo ahi blo bhi).Size) :
    ∀ t, t < (findLongestMatch a b alo ahi blo bhi).Size →
      a[(findLongestMatch a b alo ahi blo bhi).A + t]? =
        b[(findLongestMatch a b alo ahi blo bhi).B + t]? := by
  intro t ht
  have hinv := findLongestMatch_inv (a := a) (b := b) alo ahi blo bhi hpos
  rw [hinv.2.2.2.2] at ht
  exact (runLen_get a b ahi bhi _ _ t ht).1

/-! Lemmas about `ChainOK`, `endA`, `endB` and `matchBlocks`. -/

theorem chainOK_append {a b : List String} :
    ∀ {L1 : List Match} {i j : Nat} (L2 : List Match),
      ChainOK a b i j L1 → ChainOK a b (endA L1 i) (endB L1 j) L2 →
      ChainOK a b i j (L1 ++ L2) := by
  intro L1
  induction L1 with
  | nil => intro i j L2 _ h2; simpa [endA, endB] using h2
  | cons m rest ih =>
    intro i j L2 h1 h2
    simp only [ChainOK] at h1
    simp only [endA, endB] at h2
    exact ⟨h1.1, h1.2.1, h1.2.2.1, h1.2.2.2.1, h1.2.2.2.2.1,
      ih L2 h1.2.2.2.2.2 h2⟩

theorem endA_le_of_blocks {hi : Nat} :
    ∀ {L : List Match} {i : Nat}, (∀ m ∈ L, m.A + m.Size ≤ hi) → i ≤ hi →
      endA L i ≤ hi := by
  intro L
  induction L with
  | nil => intro i _ h2; simpa [endA] using h2
  | cons m rest ih =>
    intro i h1 _
    simp only [endA]
    exact ih (fun x hx => h1 x (List.mem_cons_of_mem _ hx))
      (h1 m (List.mem_cons_self _ _))

theorem endB_le_of_blocks {hi : Nat} :
    ∀ {L : List Match} {j : Nat}, (∀ m ∈ L, m.B + m.Size ≤ hi) → j ≤ hi →
      endB L j ≤ hi := by
  intro L
  induction L with
  | nil => intro j _ h2; simpa [endB] using h2
  | cons m rest ih =>
    intro j h1 _
    simp only [endB]
    exact ih (fun x hx => h1 x (List.mem_cons_of_mem _ hx))
      (h1 m (List.mem_cons_self _ _))

theorem chainOK_le_endA {a b : List String} :
    ∀ {L : List Match} {i j : Nat}, ChainOK a b i j L → i ≤ endA L i := by
  intro L
  induction L with
  | nil => intro i j _; simp [endA]
  | cons m rest ih =>
    intro i j h
    simp only [ChainOK] at h
    simp only [endA]
    exact Nat.le_trans (Nat.le_trans h.1 (Nat.le_add_right _ _)) (ih h.2.2.2.2.2)

theorem matchBlocksAux_spec (a b : List String) :
    ∀ (fuel alo ahi blo bhi : Nat), ahi ≤ a.length → bhi ≤ b.length →
      ChainOK a b alo blo (matchBlocksAux a b fuel alo ahi blo bhi) ∧
      ∀ m ∈ matchBlocksAux a b fuel alo ahi blo bhi,
        0 < m.Size ∧ alo ≤ m.A ∧ m.A + m.Size ≤ ahi ∧ blo ≤ m.B ∧ m.B + m.Size ≤ bhi := by
  intro fuel
  induction fuel with
  | zero =>
    intro alo ahi blo bhi _ _
    simp [matchBlocksAux, ChainOK]
  | succ n ih =>
    intro alo ahi blo bhi ha hb
    by_cases hpos : 0 < (findLongestMatch a b alo ahi blo bhi).Size
    · obtain ⟨hA1, hA2, hB1, hB2, hrun⟩ := findLongestMatch_inv alo ahi blo bhi hpos
      simp only [matchBlocksAux, hpos, if_true]
      have hbefore :
          ChainOK a b alo blo
              (if alo < (findLongestMatch a b alo ahi blo bhi).A ∧
                  blo < (findLongestMatch a b alo ahi blo bhi).B then
                matchBlocksAux a b n alo (findLongestMatch a b alo ahi blo bhi).A blo
                  (findLongestMatch a b alo ahi blo bhi).B
              else []) ∧
            ∀ m ∈ (if alo < (findLongestMatch a b alo ahi blo bhi).A ∧
                  blo < (findLongestMatch a b alo ahi blo bhi).B then
                matchBlocksAux a b n alo (findLongestMatch a b alo ahi blo bhi).A blo
                  (findLongestMatch a b alo ahi blo bhi).B
              else []),
              0 < m.Size ∧ alo ≤ m.A ∧
                m.A + m.Size ≤ (findLongestMatch a b alo ahi blo bhi).A ∧ blo ≤ m.B ∧
                m.B + m.Size ≤ (findLongestMatch a b alo ahi blo bhi).B := by
        by_cases hc : alo < (findLongestMatch a b alo ahi blo bhi).A ∧
            blo < (findLongestMatch a b alo ahi blo bhi).B
        · rw [if_pos hc]
          exact ih alo _ blo _ (by omega) (by omega)
        · rw [if_neg hc]
          simp [ChainOK]
      have hafter :
          ChainOK a b ((findLongestMatch a b alo ahi blo bhi).A +
                (findLongestMatch a b alo ahi blo bhi).Size)
              ((findLongestMatch a b alo ahi blo bhi).B +
                (findLongestMatch a b alo ahi blo bhi).Size)
              (if (findLongestMatch a b alo ahi blo bhi).A +
                    (findLongestMatch a b alo ahi blo bhi).Size < ahi ∧
                  (findLongestMatch a b alo ahi blo bhi).B +
                    (findLongestMatch a b alo ahi blo bhi).Size < bhi then
                matchBlocksAux a b n
                  ((findLongestMatch a b alo ahi blo bhi).A +
                    (findLongestMatch a b alo ahi blo bhi).Size) ahi
                  ((findLongestMatch a b alo ahi blo bhi).B +
                    (findLongestMatch a b alo ahi blo bhi).Size) bhi
              else []) ∧
            ∀ m ∈ (if (findLongestMatch a b alo ahi blo bhi).A +
                    (findLongestMatch a b alo ahi blo bhi).Size < ahi ∧
                  (findLongestMatch a b alo ahi blo bhi).B +
                    (findLongestMatch a b alo ahi blo bhi).Size < bhi then
                matchBlocksAux a b n
                  ((findLongestMatch a b alo ahi blo bhi).A +
                    (findLongestMatch a b alo ahi blo bhi).Size) ahi
                  ((findLongestMatch a b alo ahi blo bhi).B +
                    (findLongestMatch a b alo ahi blo bhi).Size) bhi
              else []),
              0 < m.Size ∧
                (findLongestMatch a b alo ahi blo bhi).A +
                    (findLongestMatch a b alo ahi blo bhi).Size ≤ m.A ∧
                m.A + m.Size ≤ ahi ∧
                (findLongestMatch a b alo ahi blo bhi).B +
                    (findLongestMatch a b alo ahi blo bhi).Size ≤ m.B ∧
                m.B + m.Size ≤ bhi := by
        by_cases hc : (findLongestMatch a b alo ahi blo bhi).A +
              (findLongestMatch a b alo ahi blo bhi).Size < ahi ∧
            (findLongestMatch a b alo ahi blo bhi).B +
              (findLongestMatch a b alo ahi blo bhi).Size < bhi
        · rw [if_pos hc]
          exact ih _ ahi _ bhi ha hb
        · rw [if_neg hc]
          simp [ChainOK]
      constructor
      · apply chainOK_append _ hbefore.1
        simp only [ChainOK]
        refine ⟨?_, ?_, by omega, by omega, ?_, hafter.1⟩
        · exact endA_le_of_blocks (fun m hm => (hbefore.2 m hm).2.2.1) hA1
        · exact endB_le_of_blocks (fun m hm => (hbefore.2 m hm).2.2.2.2) hB1
        · exact sliceList_eq_of_run (fun t ht => findLongestMatch_run hpos t ht)
      · intro m hm
        rcases List.mem_append.1 hm with hm | hm
        · obtain ⟨hs, h1, h2, h3, h4⟩ := hbefore.2 m hm
          exact ⟨hs, h1, by omega, h3, by omega⟩
        · rcases List.mem_cons.1 hm with rfl | hm
          · exact ⟨hpos, hA1, hA2, hB1, hB2⟩
          · obtain ⟨hs, h1, h2, h3, h4⟩ := hafter.2 m hm
            exact ⟨hs, by omega, h2, by omega, h4⟩
    · simp [matchBlocksAux, hpos, ChainOK]

theorem getMatchingBlocks_chainOK (a b : List String) :
    ChainOK a b 0 0 (getMatchingBlocks a b) := by
  unfold getMatchingBlocks
  have hspec := matchBlocksAux_spec a b (a.length - 0) 0 a.length 0 b.length
    (Nat.le_refl _) (Nat.le_refl _)
  apply chainOK_append _ hspec.1
  simp only [ChainOK]
  refine ⟨?_, ?_, by omega, by omega, ?_, trivial⟩
  · exact endA_le_of_blocks (fun m hm => (hspec.2 m hm).2.2.1) (Nat.zero_le _)
  · exact endB_le_of_blocks (fun m hm => (hspec.2 m hm).2.2.2.2) (Nat.zero_le _)
  · simp [sliceList_same]

theorem chainOK_le_endB {a b : List String} :
    ∀ {L : List Match} {i j : Nat}, ChainOK a b i j L → j ≤ endB L j := by
  intro L
  induction L with
  | nil => intro i j _; simp [endB]
  | cons m rest ih =>
    intro i j h
    simp only [ChainOK] at h
    simp only [endB]
    exact Nat.le_trans (Nat.le_trans h.2.1 (Nat.le_add_right _ _)) (ih h.2.2.2.2.2)

theorem endA_concat (s : Match) :
    ∀ (L : List Match) (i : Nat), endA (L ++ [s]) i = s.A + s.Size := by
  intro L
  induction L with
  | nil => intro i; simp [endA]
  | cons m rest ih => intro i; simp only [List.cons_append, endA]; exact ih _

theorem endB_concat (s : Match) :
    ∀ (L : List Match) (j : Nat), endB (L ++ [s]) j = s.B + s.Size := by
  intro L
  induction L with
  | nil => intro j; simp [endB]
  | cons m rest ih => intro j; simp only [List.cons_append, endB]; exact ih _

/-! Lemmas about `genOpCodes`: the opcodes tile both sequences. -/

theorem genOpCodes_flatten_a (a b : List String) :
    ∀ (L : List Match) (i j : Nat), ChainOK a b i j L →
      ((genOpCodes L i j).map (fun op => sliceList a op.i1 op.i2)).flatten =
        sliceList a i (endA L i) := by
  intro L
  induction L with
  | nil => intro i j _; simp [genOpCodes, endA, sliceList_same]
  | cons m rest ih =>
    intro i j h
    simp only [ChainOK] at h
    obtain ⟨hiA, hjB, hAlen, hBlen, hslice, hrest⟩ := h
    have hih := ih (m.A + m.Size) (m.B + m.Size) hrest
    have hend : m.A + m.Size ≤ endA rest (m.A + m.Size) := chainOK_le_endA hrest
    simp only [genOpCodes, endA, List.map_append, List.flatten_append]
    have hpre : (((if i < m.A ∧ j < m.B then [(⟨'r', i, m.A, j, m.B⟩ : OpCode)]
        else if i < m.A then [⟨'d', i, m.A, j, m.B⟩]
        else if j < m.B then [⟨'i', i, m.A, j, m.B⟩]
        else []).map (fun op => sliceList a op.i1 op.i2)).flatten) = sliceList a i m.A := by
      by_cases h1 : i < m.A ∧ j < m.B
      · simp [h1]
      · by_cases h2 : i < m.A
        · have h3 : ¬ j < m.B := fun hj => h1 ⟨h2, hj⟩
          simp [h1, h2, h3]
        · have hieq : i = m.A := by omega
          by_cases h3 : j < m.B
          · simp [h1, h2, h3]
          · subst hieq
            simp [h1, h2, h3, sliceList_same]
    have hmid : (((if 0 < m.Size then
          [(⟨'e', m.A, m.A + m.Size, m.B, m.B + m.Size⟩ : OpCode)]
        else []).map (fun op => sliceList a op.i1 op.i2)).flatten) =
        sliceList a m.A (m.A + m.Size) := by
      by_cases hs : 0 < m.Size
      · simp [hs]
      · have hz : m.Size = 0 := by omega
        simp [hs, hz, sliceList_same]
    rw [hpre, hmid, hih, sliceList_append a hiA (Nat.le_add_right m.A m.Size)]
    exact sliceList_append a (Nat.le_trans hiA (Nat.le_add_right m.A m.Size)) hend

theorem genOpCodes_flatten_b (a b : List String) :
    ∀ (L : List Match) (i j : Nat), ChainOK a b i j L →
      ((genOpCodes L i j).map (fun op => sliceList b op.j1 op.j2)).flatten =
        sliceList b j (endB L j) := by
  intro L
  induction L with
  | nil => intro i j _; simp [genOpCodes, endB, sliceList_same]
  | cons m rest ih =>
    intro i j h
    simp only [ChainOK] at h
    obtain ⟨hiA, hjB, hAlen, hBlen, hslice, hrest⟩ := h
    have hih := ih (m.A + m.Size) (m.B + m.Size) hrest
    have hend : m.B + m.Size ≤ endB rest (m.B + m.Size) := chainOK_le_endB hrest
    simp only [genOpCodes, endB, List.map_append, List.flatten_append]
    have hpre : (((if i < m.A ∧ j < m.B then [(⟨'r', i, m.A, j, m.B⟩ : OpCode)]
        else if i < m.A then [⟨'d', i, m.A, j, m.B⟩]
        else if j < m.B then [⟨'i', i, m.A, j, m.B⟩]
        else []).map (fun op => sliceList b op.j1 op.j2)).flatten) = sliceList b j m.B := by
      by_cases h1 : i < m.A ∧ j < m.B
      · simp [h1]
      · by_cases h2 : i < m.A
        · have h3 : ¬ j < m.B := fun hj => h1 ⟨h2, hj⟩
          have hjeq : j = m.B := by omega
          subst hjeq
          simp [h1, h2, h3, sliceList_same]
        · by_cases h3 : j < m.B
          · simp [h1, h2, h3]
          · have hjeq : j = m.B := by omega
            subst hjeq
            simp [h1, h2, h3, sliceList_same]
    have hmid : (((if 0 < m.Size then
          [(⟨'e', m.A, m.A + m.Size, m.B, m.B + m.Size⟩ : OpCode)]
        else []).map (fun op => sliceList b op.j1 op.j2)).flatten) =
        sliceList b m.B (m.B + m.Size) := by
      by_cases hs : 0 < m.Size
      · simp [hs]
      · have hz : m.Size = 0 := by omega
        simp [hs, hz, sliceList_same]
    rw [hpre, hmid, hih, sliceList_append b hjB (Nat.le_add_right m.B m.Size)]
    exact sliceList_append b (Nat.le_trans hjB (Nat.le_add_right m.B m.Size)) hend

theorem genOpCodes_tags (a b : List String) :
    ∀ (L : List Match) (i j : Nat), ChainOK a b i j L →
      ∀ op ∈ genOpCodes L i j,
        (op.tag = 'r' ∨ op.tag = 'd' ∨ op.tag = 'i' ∨ op.tag = 'e') ∧
        (op.tag = 'i' → op.i1 = op.i2) ∧ (op.tag = 'd' → op.j1 = op.j2) ∧
        (op.tag = 'e' → sliceList a op.i1 op.i2 = sliceList b op.j1 op.j2) := by
  intro L
  induction L with
  | nil => intro i j _ op hop; simp [genOpCodes] at hop
  | cons m rest ih =>
    intro i j h op hop
    simp only [ChainOK] at h
    obtain ⟨hiA, hjB, hAlen, hBlen, hslice, hrest⟩ := h
    simp only [genOpCodes, List.mem_append] at hop
    rcases hop with (hop | hop) | hop
    · by_cases h1 : i < m.A ∧ j < m.B
      · rw [if_pos h1] at hop
        simp only [List.mem_singleton] at hop
        subst hop
        refine ⟨Or.inl rfl, ?_, ?_, ?_⟩ <;> intro hc <;> simp at hc
      · rw [if_neg h1] at hop
        by_cases h2 : i < m.A
        · rw [if_pos h2] at hop
          simp only [List.mem_singleton] at hop
          subst hop
          have h3 : ¬ j < m.B := fun hj => h1 ⟨h2, hj⟩
          refine ⟨Or.inr (Or.inl rfl), ?_, ?_, ?_⟩
          · intro hc; simp at hc
          · intro _; simp only; omega
          · intro hc; simp at hc
        · rw [if_neg h2] at hop
          by_cases h3 : j < m.B
          · rw [if_pos h3] at hop
            simp only [List.mem_singleton] at hop
            subst hop
            refine ⟨Or.inr (Or.inr (Or.inl rfl)), ?_, ?_, ?_⟩
            · intro _; simp only; omega
            · intro hc; simp at hc
            · intro hc; simp at hc
          · rw [if_neg h3] at hop
            simp at hop
    · by_cases hs : 0 < m.Size
      · rw [if_pos hs] at hop
        simp only [List.mem_singleton] at hop
        subst hop
        refine ⟨Or.inr (Or.inr (Or.inr rfl)), ?_, ?_, ?_⟩
        · intro hc; simp at hc
        · intro hc; simp at hc
        · intro _; exact hslice
      · rw [if_neg hs] at hop
        simp at hop
    · exact ih _ _ hrest op hop

theorem genOpCodes_eSpans (a : List String) :
    ∀ (L : List Match) (i j : Nat),
      (((genOpCodes L i j).filter (fun op => op.tag == 'e')).map
          (fun op => sliceList a op.i1 op.i2)).flatten =
        (L.map (fun m => sliceList a m.A (m.A + m.Size))).flatten := by
  intro L
  induction L with
  | nil => intro i j; simp [genOpCodes]
  | cons m rest ih =>
    intro i j
    simp only [genOpCodes, List.filter_append, List.map_append, List.flatten_append,
      List.map_cons, List.flatten_cons]
    have hpre : ((if i < m.A ∧ j < m.B then [(⟨'r', i, m.A, j, m.B⟩ : OpCode)]
        else if i < m.A then [⟨'d', i, m.A, j, m.B⟩]
        else if j < m.B then [⟨'i', i, m.A, j, m.B⟩]
        else []).filter (fun op => op.tag == 'e')) = [] := by
      by_cases h1 : i < m.A ∧ j < m.B
      · simp [h1]
      · by_cases h2 : i < m.A
        · have h3 : ¬ j < m.B := fun hj => h1 ⟨h2, hj⟩
          simp [h1, h2, h3]
        · by_cases h3 : j < m.B <;> simp [h1, h2, h3]
    have hmid : (((if 0 < m.Size then
          [(⟨'e', m.A, m.A + m.Size, m.B, m.B + m.Size⟩ : OpCode)]
        else []).filter (fun op => op.tag == 'e')).map
          (fun op => sliceList a op.i1 op.i2)).flatten =
        sliceList a m.A (m.A + m.Size) := by
      by_cases hs : 0 < m.Size
      · simp [hs]
      · have hz : m.Size = 0 := by omega
        simp [hs, hz, sliceList_same]
    rw [hpre, hmid, ih]
    simp

theorem foldl_collect {α β : Type} (p : α → Bool) (g : α → List β) :
    ∀ (L : List α) (acc : List β),
      L.foldl (fun acc op => if p op then acc ++ g op else acc) acc =
        acc ++ ((L.filter p).map g).flatten := by
  intro L
  induction L with
  | nil => intro acc; simp
  | cons x L ih =>
    intro acc
    simp only [List.foldl_cons, List.filter_cons]
    by_cases hx : p x
    · simp only [hx, if_true, ih, List.map_cons, List.flatten_cons, List.append_assoc]
    · simp only [hx, if_false, ih, Bool.false_eq_true]

theorem GetAdditions_eq (a b : List String) :
    GetAdditions a b =
      (((getOpCodes a b).filter (fun op => op.tag == 'r' || op.tag == 'i')).map
          (fun op => sliceList b op.j1 op.j2)).flatten := by
  unfold GetAdditions
  rw [foldl_collect]
  simp

theorem GetDeletions_eq (a b : List String) :
    GetDeletions a b =
      (((getOpCodes a b).filter (fun op => op.tag == 'r' || op.tag == 'd')).map
          (fun op => sliceList a op.i1 op.i2)).flatten := by
  unfold GetDeletions
  rw [foldl_collect]
  simp

theorem GetMatches_eq (a b : List String) :
    GetMatches a b =
      (((getOpCodes a b).filter (fun op => op.tag == 'e')).map
          (fun op => sliceList a op.i1 op.i2)).flatten := by
  unfold GetMatches getOpCodes
  rw [genOpCodes_eSpans a (getMatchingBlocks a b) 0 0]
  unfold getMatchingBlocks
  rw [List.dropLast_concat]
  simp only [List.map_append, List.flatten_append, List.map_cons, List.flatten_cons]
  simp [sliceList_same]

theorem opSpans_a (a b : List String) :
    ((getOpCodes a b).map (fun op => sliceList a op.i1 op.i2)).flatten = a := by
  have h := genOpCodes_flatten_a a b (getMatchingBlocks a b) 0 0 (getMatchingBlocks_chainOK a b)
  unfold getOpCodes
  rw [h]
  unfold getMatchingBlocks
  rw [endA_concat]
  simpa using sliceList_full a

theorem opSpans_b (a b : List String) :
    ((getOpCodes a b).map (fun op => sliceList b op.j1 op.j2)).flatten = b := by
  have h := genOpCodes_flatten_b a b (getMatchingBlocks a b) 0 0 (getMatchingBlocks_chainOK a b)
  unfold getOpCodes
  rw [h]
  unfold getMatchingBlocks
  rw [endB_concat]
  simpa using sliceList_full b

theorem getOpCodes_tags (a b : List String) :
    ∀ op ∈ getOpCodes a b,
      (op.tag = 'r' ∨ op.tag = 'd' ∨ op.tag = 'i' ∨ op.tag = 'e') ∧
      (op.tag = 'i' → op.i1 = op.i2) ∧ (op.tag = 'd' → op.j1 = op.j2) ∧
      (op.tag = 'e' → sliceList a op.i1 op.i2 = sliceList b op.j1 op.j2) :=
  genOpCodes_tags a b (getMatchingBlocks a b) 0 0 (getMatchingBlocks_chainOK a b)

/-- C1: for every pair of string sequences `a` and `b`, interleaving in
original index order the spans collected by `GetMatches` (equal spans) and by
`GetDeletions` (`a`-side spans of delete/replace opcodes) reproduces `a`
exactly, and symmetrically the equal spans and the `b`-side spans collected by
`GetAdditions` (insert/replace opcodes) reproduce `b`: the opcode list tiles
`a` (resp. `b`) in order, the equal spans concatenate to `GetMatches`, the
replace/delete `a`-side spans concatenate to `GetDeletions`, the
replace/insert `b`-side spans concatenate to `GetAdditions`, and the remaining
opcodes contribute empty spans on the corresponding side. -/
theorem c1_matcher_reconstruction (a b : List String) :
    ((getOpCodes a b).map (fun op => sliceList a op.i1 op.i2)).flatten = a ∧
    ((getOpCodes a b).map (fun op => sliceList b op.j1 op.j2)).flatten = b ∧
    (((getOpCodes a b).filter (fun op => op.tag == 'e')).map
        (fun op => sliceList a op.i1 op.i2)).flatten = GetMatches a b ∧
    (((getOpCodes a b).filter (fun op => op.tag == 'r' || op.tag == 'd')).map
        (fun op => sliceList a op.i1 op.i2)).flatten = GetDeletions a b ∧
    (((getOpCodes a b).filter (fun op => op.tag == 'r' || op.tag == 'i')).map
        (fun op => sliceList b op.j1 op.j2)).flatten = GetAdditions a b ∧
    ∀ op ∈ getOpCodes a b,
      (op.tag = 'r' ∨ op.tag = 'd' ∨ op.tag = 'i' ∨ op.tag = 'e') ∧
      (op.tag = 'i' → op.i1 = op.i2) ∧ (op.tag = 'd' → op.j1 = op.j2) ∧
      (op.tag = 'e' → sliceList a op.i1 op.i2 = sliceList b op.j1 op.j2) :=
  ⟨opSpans_a a b, opSpans_b a b, (GetMatches_eq a b).symm, (GetDeletions_eq a b).symm,
    (GetAdditions_eq a b).symm, getOpCodes_tags a b⟩

/-- Witness for C1 at the concrete sequences `["x", "y"]` and `["y", "x"]`. -/
theorem c1_matcher_reconstruction_witness :
    ((getOpCodes ["x", "y"] ["y", "x"]).map
        (fun op => sliceList ["x", "y"] op.i1 op.i2)).flatten = ["x", "y"] ∧
    (OpCode.mk 'i' 0 0 0 1) ∈ getOpCodes ["x", "y"] ["y", "x"] ∧
    (OpCode.mk 'i' 0 0 0 1).i1 = (OpCode.mk 'i' 0 0 0 1).i2 :=
  ⟨(c1_matcher_reconstruction ["x", "y"] ["y", "x"]).1, by decide,
    ((c1_matcher_reconstruction ["x", "y"] ["y", "x"]).2.2.2.2.2
        (OpCode.mk 'i' 0 0 0 1) (by decide)).2.1 rfl⟩

/-! Engine-level helper lemmas. -/

theorem mem_sortStrings {x : String} {l : List String} : x ∈ sortStrings l ↔ x ∈ l :=
  (List.perm_insertionSort _ l).mem_iff

/-- C3: a matched entry that is a symlink in both trees with identical mode,
uid and gid but different link targets is reported by the content diff
(`GetModifiedEntries`) and not reported by the metadata diff
(`GetModifiedMetaEntries`). -/
theorem c3_symlink_vs_metadata (fs : FS) (d1 d2 : Directory) (f : String)
    (s1 s2 : FileStat) (l1 l2 : String)
    (hm : f ∈ GetMatches d1.Content d2.Content)
    (h1 : fs.lstat (d1.Root ++ f) = some s1) (h2 : fs.lstat (d2.Root ++ f) = some s2)
    (hs1 : statIsSymlink s1 = true) (hs2 : statIsSymlink s2 = true)
    (hmode : s1.mode = s2.mode) (huid : s1.uid = s2.uid) (hgid : s1.gid = s2.gid)
    (hl1 : fs.readlink (d1.Root ++ f) = some l1) (hl2 : fs.readlink (d2.Root ++ f) = some l2)
    (hne : l1 ≠ l2) :
    f ∈ GetModifiedEntries fs d1 d2 ∧ f ∉ GetModifiedMetaEntries fs d1 d2 := by
  constructor
  · refine List.mem_filter.2 ⟨hm, ?_⟩
    simp [isModifiedEntry, CheckSameSymlink, h1, h2, hl1, hl2, hs1, hs2, hne]
  · intro hmem
    have hmod := (List.mem_filter.1 hmem).2
    simp [isMetaModifiedEntry, h1, h2, hmode, huid, hgid] at hmod

/-- Witness for C3 on the `fsLink` fixture. -/
theorem c3_symlink_vs_metadata_witness :
    "/link" ∈ GetModifiedEntries fsLink ⟨"/1", ["/link"]⟩ ⟨"/2", ["/link"]⟩ ∧
    "/link" ∉ GetModifiedMetaEntries fsLink ⟨"/1", ["/link"]⟩ ⟨"/2", ["/link"]⟩ :=
  c3_symlink_vs_metadata fsLink ⟨"/1", ["/link"]⟩ ⟨"/2", ["/link"]⟩ "/link"
    ⟨modeSymlink + 511, 4, 7, 8⟩ ⟨modeSymlink + 511, 4, 7, 8⟩ "/a" "/b"
    (by decide) (by decide) (by decide) (by decide) (by decide)
    rfl rfl rfl (by decide) (by decide) (by decide)

/-- C10: the link-target rule of the content diff engine applies only when
both matched sides are symlinks.  When exactly one side is a symlink, the
entry is classified by the subsequent tar-size or size-plus-byte-content
rules, and the readlink oracle is never consulted. -/
theorem c10_symlink_rule_needs_both (fs : FS) (root1 root2 f : String) (s1 s2 : FileStat)
    (h1 : fs.lstat (root1 ++ f) = some s1) (h2 : fs.lstat (root2 ++ f) = some s2)
    (hx : statIsSymlink s1 ≠ statIsSymlink s2) :
    isModifiedEntry fs root1 root2 f =
      (if fs.isTar (root1 ++ f) then decide (s1.size ≠ s2.size)
       else if !(statIsDir s1) then
         match CheckSameFile fs (root1 ++ f) (root2 ++ f) with
         | none => false
         | some same => !same
       else false) ∧
    ∀ rl : String → Option String,
      isModifiedEntry { fs with readlink := rl } root1 root2 f =
        isModifiedEntry fs root1 root2 f := by
  have hboth : (statIsSymlink s1 && statIsSymlink s2) = false := by
    cases ha : statIsSymlink s1 <;> cases hb : statIsSymlink s2 <;> simp_all
  constructor
  · simp [isModifiedEntry, h1, h2, hboth]
  · intro rl
    simp [isModifiedEntry, h1, h2, hboth, CheckSameFile]

/-- Witness for C10 on the `fsOneLink` fixture. -/
theorem c10_symlink_rule_needs_both_witness :
    isModifiedEntry fsOneLink "/1" "/2" "/f" =
      (if fsOneLink.isTar ("/1" ++ "/f") then
        decide ((FileStat.mk modeSymlink 3 0 0).size ≠ (FileStat.mk 0 3 0 0).size)
       else if !(statIsDir (FileStat.mk modeSymlink 3 0 0)) then
         match CheckSameFile fsOneLink ("/1" ++ "/f") ("/2" ++ "/f") with
         | none => false
         | some same => !same
       else false) ∧
    isModifiedEntry { fsOneLink with readlink := fun _ => some "/elsewhere" } "/1" "/2" "/f" =
      isModifiedEntry fsOneLink "/1" "/2" "/f" :=
  ⟨(c10_symlink_rule_needs_both fsOneLink "/1" "/2" "/f"
      ⟨modeSymlink, 3, 0, 0⟩ ⟨0, 3, 0, 0⟩ (by decide) (by decide) (by decide)).1,
    (c10_symlink_rule_needs_both fsOneLink "/1" "/2" "/f"
      ⟨modeSymlink, 3, 0, 0⟩ ⟨0, 3, 0, 0⟩ (by decide) (by decide) (by decide)).2 _⟩

/-- C2 counterexample: a matched candidate whose first side is recognized as a
tar archive, with equal raw sizes on both sides, is nevertheless reported as
modified, because both sides are symlinks with different targets and the
symlink rule precedes the tar rule.  This falsifies the claim as stated. -/
theorem c2_tar_size_counterexample :
    fsTarSym.isTar ("/1" ++ "/t") = true ∧
    fsTarSym.lstat ("/1" ++ "/t") = some ⟨modeSymlink, 5, 0, 0⟩ ∧
    fsTarSym.lstat ("/2" ++ "/t") = some ⟨modeSymlink, 5, 0, 0⟩ ∧
    "/t" ∈ GetMatches ["/t"] ["/t"] ∧
    "/t" ∈ GetModifiedEntries fsTarSym ⟨"/1", ["/t"]⟩ ⟨"/2", ["/t"]⟩ := by
  refine ⟨by decide, by decide, by decide, by decide, ?_⟩
  decide

/-- C2 amended: for a matched candidate recognized (on the first side) as a
tar archive, provided the two sides are not both symlinks (the symlink rule
precedes the tar rule), the content diff reports it as modified if and only if
the raw sizes differ; in particular such equal-size tar entries are never in
the modified list regardless of their byte content. -/
theorem c2_tar_size_heuristic (fs : FS) (d1 d2 : Directory) (f : String)
    (s1 s2 : FileStat)
    (hm : f ∈ GetMatches d1.Content d2.Content)
    (h1 : fs.lstat (d1.Root ++ f) = some s1) (h2 : fs.lstat (d2.Root ++ f) = some s2)
    (hnl : ¬(statIsSymlink s1 = true ∧ statIsSymlink s2 = true))
    (htar : fs.isTar (d1.Root ++ f) = true) :
    f ∈ GetModifiedEntries fs d1 d2 ↔ s1.size ≠ s2.size := by
  have hboth : (statIsSymlink s1 && statIsSymlink s2) = false := by
    cases ha : statIsSymlink s1 <;> cases hb : statIsSymlink s2 <;> simp_all
  unfold GetModifiedEntries
  rw [List.mem_filter]
  constructor
  · rintro ⟨_, hmod⟩
    simp [isModifiedEntry, h1, h2, hboth, htar] at hmod
    exact hmod
  · intro hne
    refine ⟨hm, ?_⟩
    simp [isModifiedEntry, h1, h2, hboth, htar, hne]

/-- Witness for the amended C2 on the `fsTarPlain` fixture: regular tar files
of sizes 3 and 4 are reported as modified. -/
theorem c2_tar_size_heuristic_witness :
    ((3 : Int) ≠ 4) ∧
    "/t" ∈ GetModifiedEntries fsTarPlain ⟨"/1", ["/t"]⟩ ⟨"/2", ["/t"]⟩ :=
  ⟨by decide,
    (c2_tar_size_heuristic fsTarPlain ⟨"/1", ["/t"]⟩ ⟨"/2", ["/t"]⟩ "/t"
        ⟨0, 3, 0, 0⟩ ⟨0, 4, 0, 0⟩ (by decide) (by decide) (by decide)
        (by decide) (by decide)).2 (by decide)⟩

theorem createDirectoryMetaEntries_none (fs : FS) (root : String) :
    ∀ (names : List String) (f : String), f ∈ names →
      fs.lstat (filepathJoin root f) = none →
      CreateDirectoryMetaEntries fs root names = none := by
  intro names
  induction names with
  | nil => intro f hf _; simp at hf
  | cons name rest ih =>
    intro f hf hnone
    rcases List.mem_cons.1 hf with rfl | hf
    · simp [CreateDirectoryMetaEntries, hnone]
    · simp only [CreateDirectoryMetaEntries]
      rcases hs : fs.lstat (filepathJoin root name) with _ | fstat
      · rfl
      · rw [ih f hf hnone]
        rfl

theorem createDirectoryMetaEntries_length (fs : FS) (root : String) :
    ∀ (names : List String) (l : List DirectoryMetaEntry),
      CreateDirectoryMetaEntries fs root names = some l → l.length = names.length := by
  intro names
  induction names with
  | nil =>
    intro l hl
    simp only [CreateDirectoryMetaEntries, Option.some.injEq] at hl
    subst hl
    rfl
  | cons name rest ih =>
    intro l hl
    simp only [CreateDirectoryMetaEntries] at hl
    rcases hs : fs.lstat (filepathJoin root name) with _ | fstat
    · rw [hs] at hl; simp at hl
    · rw [hs] at hl
      rcases hr : CreateDirectoryMetaEntries fs root rest with _ | l'
      · rw [hr] at hl; simp at hl
      · rw [hr] at hl
        cases hl
        simp [ih l' hr]

theorem createMetaEntryDiffs_length (fs : FS) (root1 root2 : String) :
    ∀ (names : List String) (l : List MetaEntryDiff),
      createMetaEntryDiffs fs root1 root2 names = some l → l.length = names.length := by
  intro names
  induction names with
  | nil =>
    intro l hl
    simp only [createMetaEntryDiffs, Option.some.injEq] at hl
    subst hl
    rfl
  | cons name rest ih =>
    intro l hl
    simp only [createMetaEntryDiffs] at hl
    rcases hs1 : fs.lstat (filepathJoin root1 name) with _ | f1stat
    · rw [hs1] at hl; simp at hl
    · rw [hs1] at hl
      rcases hs2 : fs.lstat (filepathJoin root2 name) with _ | f2stat
      · rw [hs2] at hl; simp at hl
      · rw [hs2] at hl
        rcases hr : createMetaEntryDiffs fs root1 root2 rest with _ | l'
        · rw [hr] at hl; simp at hl
        · rw [hr] at hl
          cases hl
          simp [ih l' hr]

/-- C6: a stat failure while materializing an addition entry or a deletion
entry hard-fails the metadata diff, returning an empty `MetaDirDiff` with an
error, while the content diff keeps the corresponding entry (in Adds or in
Dels respectively) with the size sentinel `-1` and has no error channel at
all. -/
theorem c6_materialization_split (fs : FS) (d1 d2 : Directory) (f : String) :
    (f ∈ GetAddedEntries d1 d2 → fs.lstat (filepathJoin d2.Root f) = none →
      DiffDirectoryMetadata fs d1 d2 = ⟨⟨[], [], []⟩, false, true⟩ ∧
      DirectoryEntry.mk f (-1) ∈ (DiffDirectory fs d1 d2).1.Adds) ∧
    (f ∈ GetDeletedEntries d1 d2 → fs.lstat (filepathJoin d1.Root f) = none →
      DiffDirectoryMetadata fs d1 d2 = ⟨⟨[], [], []⟩, false, true⟩ ∧
      DirectoryEntry.mk f (-1) ∈ (DiffDirectory fs d1 d2).1.Dels) := by
  constructor
  · intro hf hstat
    have hmem : f ∈ sortStrings (GetAddedEntries d1 d2) := mem_sortStrings.2 hf
    have hnone := createDirectoryMetaEntries_none fs d2.Root _ _ hmem hstat
    constructor
    · simp [DiffDirectoryMetadata, hnone]
    · show DirectoryEntry.mk f (-1) ∈
        CreateDirectoryEntries fs d2.Root (sortStrings (GetAddedEntries d1 d2))
      unfold CreateDirectoryEntries
      refine List.mem_map.2 ⟨f, hmem, ?_⟩
      unfold GetSize
      rw [hstat]
  · intro hf hstat
    have hmem : f ∈ sortStrings (GetDeletedEntries d1 d2) := mem_sortStrings.2 hf
    have hnone := createDirectoryMetaEntries_none fs d1.Root _ _ hmem hstat
    constructor
    · rcases hA : CreateDirectoryMetaEntries fs d2.Root
          (sortStrings (GetAddedEntries d1 d2)) with _ | lA
      · simp [DiffDirectoryMetadata, hA]
      · simp [DiffDirectoryMetadata, hA, hnone]
    · show DirectoryEntry.mk f (-1) ∈
        CreateDirectoryEntries fs d1.Root (sortStrings (GetDeletedEntries d1 d2))
      unfold CreateDirectoryEntries
      refine List.mem_map.2 ⟨f, hmem, ?_⟩
      unfold GetSize
      rw [hstat]

/-- Witness for C6 on `fsNone` with the added entry `/x` and the deleted
entry `/y`: both materialization halves are exercised. -/
theorem c6_materialization_split_witness :
    (DiffDirectoryMetadata fsNone ⟨"/r1", ["/y"]⟩ ⟨"/r2", ["/x"]⟩ =
        ⟨⟨[], [], []⟩, false, true⟩ ∧
      DirectoryEntry.mk "/x" (-1) ∈
        (DiffDirectory fsNone ⟨"/r1", ["/y"]⟩ ⟨"/r2", ["/x"]⟩).1.Adds) ∧
    DirectoryEntry.mk "/y" (-1) ∈
      (DiffDirectory fsNone ⟨"/r1", ["/y"]⟩ ⟨"/r2", ["/x"]⟩).1.Dels :=
  ⟨(c6_materialization_split fsNone ⟨"/r1", ["/y"]⟩ ⟨"/r2", ["/x"]⟩ "/x").1
      (by decide) rfl,
    ((c6_materialization_split fsNone ⟨"/r1", ["/y"]⟩ ⟨"/r2", ["/x"]⟩ "/y").2
      (by decide) rfl).2⟩

/-- C7: for both engines, `same = true` holds exactly when the adds, dels and
mods sequences of the resulting diff are all empty (for the metadata engine,
whenever it does not error), and two empty snapshots yield an empty diff with
`same = true`. -/
theorem c7_same_iff_empty (fs : FS) (d1 d2 : Directory) :
    ((DiffDirectory fs d1 d2).2 = true ↔
      (DiffDirectory fs d1 d2).1.Adds = [] ∧ (DiffDirectory fs d1 d2).1.Dels = [] ∧
        (DiffDirectory fs d1 d2).1.Mods = []) ∧
    ((DiffDirectoryMetadata fs d1 d2).err = false →
      ((DiffDirectoryMetadata fs d1 d2).same = true ↔
        (DiffDirectoryMetadata fs d1 d2).diff.Adds = [] ∧
          (DiffDirectoryMetadata fs d1 d2).diff.Dels = [] ∧
          (DiffDirectoryMetadata fs d1 d2).diff.Mods = [])) ∧
    DiffDirectory fs ⟨d1.Root, []⟩ ⟨d2.Root, []⟩ = (⟨[], [], []⟩, true) ∧
    DiffDirectoryMetadata fs ⟨d1.Root, []⟩ ⟨d2.Root, []⟩ = ⟨⟨[], [], []⟩, true, false⟩ := by
  refine ⟨?_, ?_, rfl, rfl⟩
  · simp [DiffDirectory, CreateDirectoryEntries, createEntryDiffs, List.length_eq_zero,
      and_assoc]
  · intro herr
    rcases hA : CreateDirectoryMetaEntries fs d2.Root
        (sortStrings (GetAddedEntries d1 d2)) with _ | lA
    · simp [DiffDirectoryMetadata, hA] at herr
    rcases hD : CreateDirectoryMetaEntries fs d1.Root
        (sortStrings (GetDeletedEntries d1 d2)) with _ | lD
    · simp [DiffDirectoryMetadata, hA, hD] at herr
    rcases hM : createMetaEntryDiffs fs d1.Root d2.Root
        (sortStrings (GetModifiedMetaEntries fs d1 d2)) with _ | lM
    · simp [DiffDirectoryMetadata, hA, hD, hM] at herr
    have eA := createDirectoryMetaEntries_length fs d2.Root _ _ hA
    have eD := createDirectoryMetaEntries_length fs d1.Root _ _ hD
    have eM := createMetaEntryDiffs_length fs d1.Root d2.Root _ _ hM
    have h1 : lA = [] ↔ sortStrings (GetAddedEntries d1 d2) = [] := by
      rw [← List.length_eq_zero (l := lA), eA, List.length_eq_zero]
    have h2 : lD = [] ↔ sortStrings (GetDeletedEntries d1 d2) = [] := by
      rw [← List.length_eq_zero (l := lD), eD, List.length_eq_zero]
    have h3 : lM = [] ↔ sortStrings (GetModifiedMetaEntries fs d1 d2) = [] := by
      rw [← List.length_eq_zero (l := lM), eM, List.length_eq_zero]
    simp only [DiffDirectoryMetadata, hA, hD, hM]
    simp [h1, h2, h3, List.length_eq_zero, and_assoc]

/-- Witness for C7: both empty snapshots over `fsNone`. -/
theorem c7_same_iff_empty_witness :
    (DiffDirectoryMetadata fsNone ⟨"/a", []⟩ ⟨"/b", []⟩).err = false ∧
    ((DiffDirectoryMetadata fsNone ⟨"/a", []⟩ ⟨"/b", []⟩).same = true ↔
      (DiffDirectoryMetadata fsNone ⟨"/a", []⟩ ⟨"/b", []⟩).diff.Adds = [] ∧
        (DiffDirectoryMetadata fsNone ⟨"/a", []⟩ ⟨"/b", []⟩).diff.Dels = [] ∧
        (DiffDirectoryMetadata fsNone ⟨"/a", []⟩ ⟨"/b", []⟩).diff.Mods = []) :=
  ⟨rfl, (c7_same_iff_empty fsNone ⟨"/a", []⟩ ⟨"/b", []⟩).2.1 rfl⟩

/-- C5: evaluation at the failing input.  The deep walk of `/img1` encounters
an error (recorded by the oracle), yet `GetDirectory` reports no error — the
walk callback ignores the error it is handed and always returns nil — so the
whole comparison succeeds instead of aborting.  The soft half of the claim
does hold: a stat failure on a matched candidate merely skips that candidate. -/
theorem c5_walk_error_swallowed :
    fsWalkErr.walkHadError "/img1" = true ∧
    (GetDirectory fsWalkErr "/img1" true).2 = false ∧
    diffImageFileMetadata fsWalkErr "/img1" "/img2" = (⟨[], [], []⟩, false) ∧
    ∀ (fs : FS) (d1 d2 : Directory) (f : String),
      fs.lstat (d1.Root ++ f) = none → f ∉ GetModifiedEntries fs d1 d2 := by
  refine ⟨rfl, rfl, by decide, ?_⟩
  intro fs d1 d2 f hstat hmem
  have hmod := (List.mem_filter.1 hmem).2
  simp [isModifiedEntry, hstat] at hmod

theorem diffLayersAux_spec (fs : FS) (layers2 : List Layer) :
    ∀ (l1 : List Layer) (k : Nat) (ds : List MetaDirDiff),
      diffLayersAux fs layers2 k l1 = some ds →
      ds.length = min l1.length (layers2.length - k) ∧
      ∀ i (hi : i < ds.length) (h1 : i < l1.length) (h2 : k + i < layers2.length),
        ds.get ⟨i, hi⟩ =
          (diffImageFileMetadata fs (l1.get ⟨i, h1⟩).FSPath
            (layers2.get ⟨k + i, h2⟩).FSPath).1 := by
  intro l1
  induction l1 with
  | nil =>
    intro k ds hds
    simp only [diffLayersAux, Option.some.injEq] at hds
    subst hds
    exact ⟨by simp, fun i hi h1 h2 => by simp at h1⟩
  | cons layer rest ih =>
    intro k ds hds
    simp only [diffLayersAux] at hds
    by_cases hk : k < layers2.length
    · rw [dif_pos hk] at hds
      rcases hd : diffImageFileMetadata fs layer.FSPath (layers2.get ⟨k, hk⟩).FSPath
        with ⟨d, e⟩
      rw [hd] at hds
      cases e
      · rcases hr : diffLayersAux fs layers2 (k + 1) rest with _ | ds'
        · rw [hr] at hds; simp at hds
        · rw [hr] at hds
          cases hds
          obtain ⟨hlen, hidx⟩ := ih (k + 1) ds' hr
          constructor
          · simp only [List.length_cons, hlen]
            omega
          · intro i hi h1 h2
            rcases i with _ | i
            · simp only [List.get]
              have hfin : (⟨k + 0, h2⟩ : Fin layers2.length) = ⟨k, hk⟩ := by
                apply Fin.ext
                simp
              rw [hfin, hd]
            · simp only [List.get]
              have h2b : k + 1 + i < layers2.length := by omega
              have := hidx i (by simpa using Nat.lt_of_succ_lt_succ hi)
                (by simpa using Nat.lt_of_succ_lt_succ h1) h2b
              rw [this]
              have hfin2 : (⟨k + (i + 1), h2⟩ : Fin layers2.length) = ⟨k + 1 + i, h2b⟩ := by
                apply Fin.ext
                simp only
                omega
              rw [hfin2]
      · simp at hds
    · rw [dif_neg hk] at hds
      obtain ⟨hlen, _⟩ := ih (k + 1) ds hds
      constructor
      · rw [hlen]
        simp only [List.length_cons]
        omega
      · intro i hi h1 h2
        exact absurd h2 (by omega)

/-- C8: the layer orchestrator diffs layer `i` of the first image against
layer `i` of the second image exactly for `i` below the smaller layer count,
so a successful run returns exactly `min` many per-layer diffs in layer
order, and extra layers of the longer image contribute nothing. -/
theorem c8_layer_alignment (fs : FS) (image1 image2 : Image) (ds : List MetaDirDiff)
    (h : FileMetaLayerAnalyzerDiff fs image1 image2 = some ds) :
    ds.length = min image1.Layers.length image2.Layers.length ∧
    ∀ i (hi : i < ds.length) (h1 : i < image1.Layers.length)
      (h2 : i < image2.Layers.length),
      ds.get ⟨i, hi⟩ =
        (diffImageFileMetadata fs (image1.Layers.get ⟨i, h1⟩).FSPath
          (image2.Layers.get ⟨i, h2⟩).FSPath).1 := by
  obtain ⟨hlen, hidx⟩ := diffLayersAux_spec fs image2.Layers image1.Layers 0 ds h
  constructor
  · simpa using hlen
  · intro i hi h1 h2
    have := hidx i hi h1 (by simpa using h2)
    simpa using this

/-- Witness for C8: a two-layer image against a one-layer image over `fsNone`
yields exactly one per-layer diff. -/
theorem c8_layer_alignment_witness :
    FileMetaLayerAnalyzerDiff fsNone img1W img2W = some [⟨[], [], []⟩] ∧
    ([(⟨[], [], []⟩ : MetaDirDiff)]).length = min img1W.Layers.length img2W.Layers.length :=
  ⟨by decide, (c8_layer_alignment fsNone img1W img2W [⟨[], [], []⟩] (by decide)).1⟩

/-- C9: `stringifyMetaEntryDiffs` renders both metadata strings of every entry
from the first side's mode, uid and gid, so the two rendered strings always
coincide and the second side's fields never influence the output. -/
theorem c9_stringify_ignores_second_side (entries : List MetaEntryDiff) :
    (∀ s ∈ stringifyMetaEntryDiffs entries, s.Meta1 = s.Meta2) ∧
    ∀ m2 u2 g2 : Nat,
      stringifyMetaEntryDiffs
          (entries.map (fun e => { e with Mode2 := m2, UID2 := u2, GID2 := g2 })) =
        stringifyMetaEntryDiffs entries := by
  constructor
  · intro s hs
    rcases List.mem_map.1 hs with ⟨e, _, rfl⟩
    rfl
  · intro m2 u2 g2
    simp [stringifyMetaEntryDiffs]

/-- Witness for C9 at a concrete entry whose two sides differ. -/
theorem c9_stringify_ignores_second_side_witness :
    (StrMetaEntryDiff.mk "/f" (stringifyMeta 420 1 2) (stringifyMeta 420 1 2)).Meta1 =
      (StrMetaEntryDiff.mk "/f" (stringifyMeta 420 1 2) (stringifyMeta 420 1 2)).Meta2 ∧
    stringifyMetaEntryDiffs [MetaEntryDiff.mk "/f" 420 1 2 999 3 4] =
      stringifyMetaEntryDiffs [MetaEntryDiff.mk "/f" 420 1 2 0 0 0] :=
  ⟨(c9_stringify_ignores_second_side [MetaEntryDiff.mk "/f" 420 1 2 999 3 4]).1
      (StrMetaEntryDiff.mk "/f" (stringifyMeta 420 1 2) (stringifyMeta 420 1 2))
      (List.mem_singleton.2 rfl),
    (c9_stringify_ignores_second_side [MetaEntryDiff.mk "/f" 420 1 2 0 0 0]).2 999 3 4⟩

/-! Multiset decomposition of the two sequences into matched and changed
spans, used for the swap-antisymmetry analysis. -/

open scoped List in
theorem flatten_filter_perm {α β : Type} (p : α → Bool) (g : α → List β) :
    ∀ L : List α,
      (L.map g).flatten ~
        ((L.filter p).map g).flatten ++ ((L.filter (fun x => !p x)).map g).flatten := by
  intro L
  induction L with
  | nil => simp
  | cons x L ih =>
    by_cases hx : p x
    · simp only [List.map_cons, List.flatten_cons, List.filter_cons, hx, if_pos,
        Bool.not_true, Bool.false_eq_true]
      calc g x ++ (L.map g).flatten
          ~ g x ++ (((L.filter p).map g).flatten ++
              ((L.filter (fun y => !p y)).map g).flatten) := ih.append_left (g x)
        _ = (g x ++ ((L.filter p).map g).flatten) ++
              ((L.filter (fun y => !p y)).map g).flatten := by
            rw [List.append_assoc]
    · have hx' : p x = false := by simpa using hx
      simp only [List.map_cons, List.flatten_cons, List.filter_cons, hx',
        Bool.not_false, if_pos, Bool.false_eq_true, if_false]
      calc g x ++ (L.map g).flatten
          ~ g x ++ (((L.filter p).map g).flatten ++
              ((L.filter (fun y => !p y)).map g).flatten) := ih.append_left (g x)
        _ = (g x ++ ((L.filter p).map g).flatten) ++
              ((L.filter (fun y => !p y)).map g).flatten := by rw [List.append_assoc]
        _ ~ (((L.filter p).map g).flatten ++ g x) ++
              ((L.filter (fun y => !p y)).map g).flatten :=
            (List.perm_append_comm).append_right _
        _ = ((L.filter p).map g).flatten ++ (g x ++
              ((L.filter (fun y => !p y)).map g).flatten) := by rw [List.append_assoc]

theorem flatten_filter_of_empty {α β : Type} (p : α → Bool) (g : α → List β) :
    ∀ L : List α, (∀ x ∈ L, p x = false → g x = []) →
      ((L.filter p).map g).flatten = (L.map g).flatten := by
  intro L
  induction L with
  | nil => intro _; simp
  | cons x L ih =>
    intro h
    by_cases hx : p x
    · simp only [List.filter_cons, hx, if_pos, List.map_cons, List.flatten_cons]
      rw [ih (fun y hy hyp => h y (List.mem_cons_of_mem _ hy) hyp)]
    · have hx' : p x = false := by simpa using hx
      have hgx : g x = [] := h x (List.mem_cons_self _ _) hx'
      simp only [List.filter_cons, hx', Bool.false_eq_true, if_false, List.map_cons,
        List.flatten_cons, hgx, List.nil_append]
      exact ih (fun y hy hyp => h y (List.mem_cons_of_mem _ hy) hyp)

open scoped List in
theorem perm_matches_dels (a b : List String) :
    a ~ GetMatches a b ++ GetDeletions a b := by
  have hsplit := flatten_filter_perm (fun op => op.tag == 'e')
    (fun op => sliceList a op.i1 op.i2) (getOpCodes a b)
  rw [opSpans_a a b] at hsplit
  have htags := getOpCodes_tags a b
  have hdels :
      (((getOpCodes a b).filter (fun op => !(op.tag == 'e'))).map
          (fun op => sliceList a op.i1 op.i2)).flatten = GetDeletions a b := by
    rw [GetDeletions_eq]
    have hsub := flatten_filter_of_empty (fun op => op.tag == 'r' || op.tag == 'd')
      (fun op => sliceList a op.i1 op.i2)
      ((getOpCodes a b).filter (fun op => !(op.tag == 'e')))
      (by
        intro op hop hrd
        have hmem := (List.mem_filter.1 hop).1
        have hne := (List.mem_filter.1 hop).2
        obtain ⟨htag, hins, _, _⟩ := htags op hmem
        have : op.tag = 'i' := by
          rcases htag with h | h | h | h <;> simp [h] at hrd hne ⊢
        show sliceList a op.i1 op.i2 = []
        rw [hins this, sliceList_same])
    rw [← hsub]
    congr 1
    rw [List.filter_filter]
    congr 1
    apply List.filter_congr
    intro op hop
    obtain ⟨htag, _, _, _⟩ := htags op hop
    rcases htag with h | h | h | h <;> simp [h]
  rw [GetMatches_eq, ← hdels]
  exact hsplit

open scoped List in
theorem perm_matches_adds (a b : List String) :
    b ~ GetMatches a b ++ GetAdditions a b := by
  have hsplit := flatten_filter_perm (fun op => op.tag == 'e')
    (fun op => sliceList b op.j1 op.j2) (getOpCodes a b)
  rw [opSpans_b a b] at hsplit
  have htags := getOpCodes_tags a b
  have hadds :
      (((getOpCodes a b).filter (fun op => !(op.tag == 'e'))).map
          (fun op => sliceList b op.j1 op.j2)).flatten = GetAdditions a b := by
    rw [GetAdditions_eq]
    have hsub := flatten_filter_of_empty (fun op => op.tag == 'r' || op.tag == 'i')
      (fun op => sliceList b op.j1 op.j2)
      ((getOpCodes a b).filter (fun op => !(op.tag == 'e')))
      (by
        intro op hop hri
        have hmem := (List.mem_filter.1 hop).1
        have hne := (List.mem_filter.1 hop).2
        obtain ⟨htag, _, hdel, _⟩ := htags op hmem
        have : op.tag = 'd' := by
          rcases htag with h | h | h | h <;> simp [h] at hri hne ⊢
        show sliceList b op.j1 op.j2 = []
        rw [hdel this, sliceList_same])
    rw [← hsub]
    congr 1
    rw [List.filter_filter]
    congr 1
    apply List.filter_congr
    intro op hop
    obtain ⟨htag, _, _, _⟩ := htags op hop
    rcases htag with h | h | h | h <;> simp [h]
  have hmatch :
      (((getOpCodes a b).filter (fun op => op.tag == 'e')).map
          (fun op => sliceList b op.j1 op.j2)).flatten = GetMatches a b := by
    rw [GetMatches_eq]
    congr 1
    apply List.map_congr_left
    intro op hop
    obtain ⟨_, _, _, hsl⟩ := htags op (List.mem_filter.1 hop).1
    have he : op.tag = 'e' := by simpa using (List.mem_filter.1 hop).2
    exact (hsl he).symm
  rw [hmatch, hadds] at hsplit
  exact hsplit

theorem mem_of_mem_GetMatches_left {a b : List String} {x : String}
    (h : x ∈ GetMatches a b) : x ∈ a :=
  (perm_matches_dels a b).mem_iff.2 (List.mem_append_left _ h)

theorem mem_of_mem_GetMatches_right {a b : List String} {x : String}
    (h : x ∈ GetMatches a b) : x ∈ b :=
  (perm_matches_adds a b).mem_iff.2 (List.mem_append_left _ h)

theorem getElem?_eq_get {α : Type} (l : List α) (i : Nat) (h : i < l.length) :
    l[i]? = some (l.get ⟨i, h⟩) := by
  rw [List.getElem?_eq_getElem h]
  rfl

theorem sorted_get_lt {l : List String} (hs : List.Sorted (fun x y => x < y) l)
    {i j : Nat} (hij : i < j) (hj : j < l.length) :
    l.get ⟨i, Nat.lt_trans hij hj⟩ < l.get ⟨j, hj⟩ :=
  List.pairwise_iff_get.1 hs ⟨i, Nat.lt_trans hij hj⟩ ⟨j, hj⟩ hij

/-- On strictly sorted sequences, every common element is covered by some
matching block: the greedy recursion never loses a common element, because
sortedness sends all smaller common elements strictly before the chosen block
in both sequences and all larger ones strictly after it. -/
theorem matchBlocksAux_complete (a b : List String)
    (sa : List.Sorted (fun x y => x < y) a) (sb : List.Sorted (fun x y => x < y) b) :
    ∀ (fuel alo ahi blo bhi : Nat), ahi ≤ a.length → bhi ≤ b.length →
      ahi - alo ≤ fuel →
      ∀ p q, alo ≤ p → p < ahi → blo ≤ q → q < bhi → a[p]? = b[q]? →
      ∃ m ∈ matchBlocksAux a b fuel alo ahi blo bhi, m.A ≤ p ∧ p < m.A + m.Size := by
  intro fuel
  induction fuel with
  | zero =>
    intro alo ahi blo bhi _ _ hf p q hp1 hp2 _ _ _
    omega
  | succ n ih =>
    intro alo ahi blo bhi ha hb hf p q hp1 hp2 hq1 hq2 heq
    have hplen : p < a.length := by omega
    have hqlen : q < b.length := by omega
    have hval : a.get ⟨p, hplen⟩ = b.get ⟨q, hqlen⟩ := by
      rw [getElem?_eq_get a p hplen, getElem?_eq_get b q hqlen] at heq
      exact Option.some.inj heq
    by_cases hpos : 0 < (findLongestMatch a b alo ahi blo bhi).Size
    · obtain ⟨hA1, hA2, hB1, hB2, hrun⟩ := findLongestMatch_inv alo ahi blo bhi hpos
      have hrunget := findLongestMatch_run (a := a) (b := b) hpos
      rcases Nat.lt_or_ge p (findLongestMatch a b alo ahi blo bhi).A with hpA | hpA
      · -- the common element lies strictly before the chosen block
        have hMAlen : (findLongestMatch a b alo ahi blo bhi).A < a.length := by omega
        have hMBlen : (findLongestMatch a b alo ahi blo bhi).B < b.length := by omega
        have h0 := hrunget 0 hpos
        simp only [Nat.add_zero] at h0
        rw [getElem?_eq_get a _ hMAlen, getElem?_eq_get b _ hMBlen] at h0
        have h0v := Option.some.inj h0
        have hvpA : a.get ⟨p, hplen⟩ <
            a.get ⟨(findLongestMatch a b alo ahi blo bhi).A, hMAlen⟩ :=
          sorted_get_lt sa hpA hMAlen
        have hqB : q < (findLongestMatch a b alo ahi blo bhi).B := by
          by_contra hge
          push_neg at hge
          have hle : b.get ⟨(findLongestMatch a b alo ahi blo bhi).B, hMBlen⟩ ≤
              b.get ⟨q, hqlen⟩ := by
            rcases Nat.eq_or_lt_of_le hge with he | hl
            · apply le_of_eq
              congr 1
              exact Fin.ext he
            · exact le_of_lt (sorted_get_lt sb hl hqlen)
          have : a.get ⟨p, hplen⟩ < a.get ⟨p, hplen⟩ := by
            calc a.get ⟨p, hplen⟩
                < a.get ⟨(findLongestMatch a b alo ahi blo bhi).A, hMAlen⟩ := hvpA
              _ = b.get ⟨(findLongestMatch a b alo ahi blo bhi).B, hMBlen⟩ := h0v
              _ ≤ b.get ⟨q, hqlen⟩ := hle
              _ = a.get ⟨p, hplen⟩ := hval.symm
          exact lt_irrefl _ this
        obtain ⟨m, hm, hmb⟩ := ih alo (findLongestMatch a b alo ahi blo bhi).A blo
          (findLongestMatch a b alo ahi blo bhi).B (by omega) (by omega) (by omega)
          p q hp1 hpA hq1 hqB heq
        refine ⟨m, ?_, hmb⟩
        simp only [matchBlocksAux, hpos, if_true]
        rw [if_pos ⟨by omega, by omega⟩]
        exact List.mem_append_left _ hm
      · rcases Nat.lt_or_ge p ((findLongestMatch a b alo ahi blo bhi).A +
            (findLongestMatch a b alo ahi blo bhi).Size) with hpS | hpS
        · -- the element sits inside the chosen block
          refine ⟨findLongestMatch a b alo ahi blo bhi, ?_, hpA, hpS⟩
          simp only [matchBlocksAux, hpos, if_true]
          exact List.mem_append_right _ (List.mem_cons_self _ _)
        · -- the common element lies strictly after the chosen block
          have hlast := hrunget ((findLongestMatch a b alo ahi blo bhi).Size - 1) (by omega)
          have hALlen : (findLongestMatch a b alo ahi blo bhi).A +
              ((findLongestMatch a b alo ahi blo bhi).Size - 1) < a.length := by omega
          have hBLlen : (findLongestMatch a b alo ahi blo bhi).B +
              ((findLongestMatch a b alo ahi blo bhi).Size - 1) < b.length := by omega
          rw [getElem?_eq_get a _ hALlen, getElem?_eq_get b _ hBLlen] at hlast
          have hlastv := Option.some.inj hlast
          have hvAL : a.get ⟨(findLongestMatch a b alo ahi blo bhi).A +
              ((findLongestMatch a b alo ahi blo bhi).Size - 1), hALlen⟩ <
              a.get ⟨p, hplen⟩ :=
            sorted_get_lt sa (by omega) hplen
          have hqS : (findLongestMatch a b alo ahi blo bhi).B +
              (findLongestMatch a b alo ahi blo bhi).Size ≤ q := by
            by_contra hge
            push_neg at hge
            have hle : b.get ⟨q, hqlen⟩ ≤
                b.get ⟨(findLongestMatch a b alo ahi blo bhi).B +
                  ((findLongestMatch a b alo ahi blo bhi).Size - 1), hBLlen⟩ := by
              rcases Nat.eq_or_lt_of_le (show q ≤ (findLongestMatch a b alo ahi blo bhi).B +
                  ((findLongestMatch a b alo ahi blo bhi).Size - 1) by omega) with he | hl
              · apply le_of_eq
                congr 1
                exact Fin.ext he
              · exact le_of_lt (sorted_get_lt sb hl hBLlen)
            have : a.get ⟨p, hplen⟩ < a.get ⟨p, hplen⟩ := by
              calc a.get ⟨p, hplen⟩
                  = b.get ⟨q, hqlen⟩ := hval
                _ ≤ b.get ⟨(findLongestMatch a b alo ahi blo bhi).B +
                    ((findLongestMatch a b alo ahi blo bhi).Size - 1), hBLlen⟩ := hle
                _ = a.get ⟨(findLongestMatch a b alo ahi blo bhi).A +
                    ((findLongestMatch a b alo ahi blo bhi).Size - 1), hALlen⟩ := hlastv.symm
                _ < a.get ⟨p, hplen⟩ := hvAL
            exact lt_irrefl _ this
          obtain ⟨m, hm, hmb⟩ := ih ((findLongestMatch a b alo ahi blo bhi).A +
              (findLongestMatch a b alo ahi blo bhi).Size) ahi
            ((findLongestMatch a b alo ahi blo bhi).B +
              (findLongestMatch a b alo ahi blo bhi).Size) bhi
            ha hb (by omega) p q hpS hp2 hqS hq2 heq
          refine ⟨m, ?_, hmb⟩
          simp only [matchBlocksAux, hpos, if_true]
          refine List.mem_append_right _ (List.mem_cons_of_mem _ ?_)
          rw [if_pos ⟨by omega, by omega⟩]
          exact hm
    · exfalso
      have hsome : (a[p]?).isSome := by
        rw [List.getElem?_eq_getElem hplen]
        rfl
      have hmax := findLongestMatch_max (a := a) (b := b) hp1 hp2 hq1 hq2
      have hpos2 := runLen_pos a b hp2 hq2 hsome heq
      omega

theorem mem_GetMatches_of_mem_both {a b : List String}
    (sa : List.Sorted (fun x y => x < y) a) (sb : List.Sorted (fun x y => x < y) b)
    {x : String} (hxa : x ∈ a) (hxb : x ∈ b) : x ∈ GetMatches a b := by
  obtain ⟨⟨p, hplen⟩, hpa⟩ := List.mem_iff_get.1 hxa
  obtain ⟨⟨q, hqlen⟩, hqa⟩ := List.mem_iff_get.1 hxb
  have heq : a[p]? = b[q]? := by
    rw [getElem?_eq_get a p hplen, getElem?_eq_get b q hqlen, hpa, hqa]
  obtain ⟨m, hm, hm1, hm2⟩ := matchBlocksAux_complete a b sa sb (a.length - 0)
    0 a.length 0 b.length (Nat.le_refl _) (Nat.le_refl _) (Nat.le_refl _)
    p q (Nat.zero_le _) hplen (Nat.zero_le _) hqlen heq
  unfold GetMatches getMatchingBlocks
  rw [List.dropLast_concat]
  refine List.mem_flatten.2 ⟨sliceList a m.A (m.A + m.Size),
    List.mem_map_of_mem _ hm, ?_⟩
  apply List.getElem?_mem (n := p - m.A)
  rw [sliceList_getElem? a _ _ _ (by omega)]
  have hix : m.A + (p - m.A) = p := by omega
  rw [hix, getElem?_eq_get a p hplen, hpa]

theorem mem_GetDeletions_iff {a b : List String}
    (sa : List.Sorted (fun x y => x < y) a) (sb : List.Sorted (fun x y => x < y) b)
    (x : String) : x ∈ GetDeletions a b ↔ x ∈ a ∧ x ∉ b := by
  have hperm := perm_matches_dels a b
  have hcnt : List.count x a =
      List.count x (GetMatches a b) + List.count x (GetDeletions a b) := by
    rw [hperm.count_eq x, List.count_append]
  have hnd : a.Nodup := sa.nodup
  constructor
  · intro hd
    have hxa : x ∈ a := hperm.mem_iff.2 (List.mem_append_right _ hd)
    refine ⟨hxa, fun hxb => ?_⟩
    have hxm : x ∈ GetMatches a b := mem_GetMatches_of_mem_both sa sb hxa hxb
    have hc1 := List.count_pos_iff.2 hxm
    have hc2 := List.count_pos_iff.2 hd
    have hc3 := List.nodup_iff_count_le_one.1 hnd x
    omega
  · rintro ⟨hxa, hxb⟩
    have hxm : x ∉ GetMatches a b := fun h => hxb (mem_of_mem_GetMatches_right h)
    have h0 : List.count x (GetMatches a b) = 0 := List.count_eq_zero.2 hxm
    have h1 := List.count_pos_iff.2 hxa
    exact List.count_pos_iff.1 (by omega)

theorem mem_GetAdditions_iff {a b : List String}
    (sa : List.Sorted (fun x y => x < y) a) (sb : List.Sorted (fun x y => x < y) b)
    (x : String) : x ∈ GetAdditions a b ↔ x ∈ b ∧ x ∉ a := by
  have hperm := perm_matches_adds a b
  have hcnt : List.count x b =
      List.count x (GetMatches a b) + List.count x (GetAdditions a b) := by
    rw [hperm.count_eq x, List.count_append]
  have hnd : b.Nodup := sb.nodup
  constructor
  · intro hd
    have hxb : x ∈ b := hperm.mem_iff.2 (List.mem_append_right _ hd)
    refine ⟨hxb, fun hxa => ?_⟩
    have hxm : x ∈ GetMatches a b := mem_GetMatches_of_mem_both sa sb hxa hxb
    have hc1 := List.count_pos_iff.2 hxm
    have hc2 := List.count_pos_iff.2 hd
    have hc3 := List.nodup_iff_count_le_one.1 hnd x
    omega
  · rintro ⟨hxb, hxa⟩
    have hxm : x ∉ GetMatches a b := fun h => hxa (mem_of_mem_GetMatches_left h)
    have h0 : List.count x (GetMatches a b) = 0 := List.count_eq_zero.2 hxm
    have h1 := List.count_pos_iff.2 hxb
    exact List.count_pos_iff.1 (by omega)

theorem diffDirectory_adds_names (fs : FS) (d1 d2 : Directory) :
    (DiffDirectory fs d1 d2).1.Adds.map DirectoryEntry.Name =
      sortStrings (GetAdditions d1.Content d2.Content) := by
  show (CreateDirectoryEntries fs d2.Root (sortStrings (GetAddedEntries d1 d2))).map
      DirectoryEntry.Name = _
  unfold CreateDirectoryEntries GetAddedEntries
  rw [List.map_map]
  change List.map id _ = _
  rw [List.map_id]

theorem diffDirectory_dels_names (fs : FS) (d1 d2 : Directory) :
    (DiffDirectory fs d1 d2).1.Dels.map DirectoryEntry.Name =
      sortStrings (GetDeletions d1.Content d2.Content) := by
  show (CreateDirectoryEntries fs d1.Root (sortStrings (GetDeletedEntries d1 d2))).map
      DirectoryEntry.Name = _
  unfold CreateDirectoryEntries GetDeletedEntries
  rw [List.map_map]
  change List.map id _ = _
  rw [List.map_id]

/-- C4 counterexample: for the (unsorted) content listings `["x", "y"]` and
`["y", "x"]` the matcher aligns asymmetrically, so the name set of the Adds of
`DiffDirectory(T1, T2)` differs from the name set of the Dels of
`DiffDirectory(T2, T1)`: the former is `{y}`, the latter `{x}`. -/
theorem c4_swap_counterexample :
    (((DiffDirectory fsNone ⟨"/1", ["x", "y"]⟩ ⟨"/2", ["y", "x"]⟩).1.Adds.map
        DirectoryEntry.Name).toFinset ≠
      ((DiffDirectory fsNone ⟨"/2", ["y", "x"]⟩ ⟨"/1", ["x", "y"]⟩).1.Dels.map
        DirectoryEntry.Name).toFinset) ∧
    "y" ∈ (DiffDirectory fsNone ⟨"/1", ["x", "y"]⟩ ⟨"/2", ["y", "x"]⟩).1.Adds.map
        DirectoryEntry.Name ∧
    "y" ∉ (DiffDirectory fsNone ⟨"/2", ["y", "x"]⟩ ⟨"/1", ["x", "y"]⟩).1.Dels.map
        DirectoryEntry.Name := by
  refine ⟨?_, by decide, by decide⟩
  decide

/-- C4 amended: for directory snapshots whose content listings are strictly
sorted (ascending and duplicate-free, as produced by a filesystem walk), the
name set of the Adds of `DiffDirectory(T1, T2)` equals the name set of the
Dels of `DiffDirectory(T2, T1)`, and symmetrically for Dels and Adds. -/
theorem c4_swap_antisymmetry (fs : FS) (d1 d2 : Directory)
    (h1 : List.Sorted (fun x y => x < y) d1.Content)
    (h2 : List.Sorted (fun x y => x < y) d2.Content) :
    ((DiffDirectory fs d1 d2).1.Adds.map DirectoryEntry.Name).toFinset =
      ((DiffDirectory fs d2 d1).1.Dels.map DirectoryEntry.Name).toFinset ∧
    ((DiffDirectory fs d1 d2).1.Dels.map DirectoryEntry.Name).toFinset =
      ((DiffDirectory fs d2 d1).1.Adds.map DirectoryEntry.Name).toFinset := by
  constructor
  · apply Finset.ext
    intro x
    rw [List.mem_toFinset, List.mem_toFinset, diffDirectory_adds_names,
      diffDirectory_dels_names, mem_sortStrings, mem_sortStrings,
      mem_GetAdditions_iff h1 h2, mem_GetDeletions_iff h2 h1]
  · apply Finset.ext
    intro x
    rw [List.mem_toFinset, List.mem_toFinset, diffDirectory_dels_names,
      diffDirectory_adds_names, mem_sortStrings, mem_sortStrings,
      mem_GetDeletions_iff h1 h2, mem_GetAdditions_iff h2 h1]

/-- Witness for the amended C4 on sorted listings `["/a", "/b"]` and
`["/a", "/c"]`. -/
theorem c4_swap_antisymmetry_witness :
    List.Sorted (fun x y : String => x < y) ["/a", "/b"] ∧
    ((DiffDirectory fsNone ⟨"/1", ["/a", "/b"]⟩ ⟨"/2", ["/a", "/c"]⟩).1.Adds.map
        DirectoryEntry.Name).toFinset =
      ((DiffDirectory fsNone ⟨"/2", ["/a", "/c"]⟩ ⟨"/1", ["/a", "/b"]⟩).1.Dels.map
        DirectoryEntry.Name).toFinset :=
  ⟨by
      simp [List.sorted_cons]
      decide,
    (c4_swap_antisymmetry fsNone ⟨"/1", ["/a", "/b"]⟩ ⟨"/2", ["/a", "/c"]⟩
      (by
        simp [List.sorted_cons]
        decide)
      (by
        simp [List.sorted_cons]
        decide)).1⟩

end ContainerDiff
